import Mathlib

/-!
Verification development for the mutation-frequency calculator repository.

The analysis engine (`src/mutation_analyzer.py`, function `analyze_mutations`)
is embedded as pure functions over columns of characters; frequencies are
modelled as exact rationals with Python's half-even rounding to two decimal
places.  The persistence layer (`src/app.py` `upload_file`), the integrity
monitor (`src/file_integrity_monitor.py` `check_file_integrity`) and the
orphan sweeps (`src/database_integrity_manager.py`) are embedded as functions
on an explicit system state: a registry (list of records) plus a file store
with an uploads directory and a backups directory, each modelled as the list
of file names present.  Every repair or cleanup action is recorded as an
`Event`, so "zero mutations" claims become claims that an event list is empty.
I/O failures and the database retry machinery are not modelled; the happy
path of each operation is embedded.
-/

namespace MutationCalc

/-- Gap symbol used by the analyzer (`"-"` in `mutation_analyzer.py`). -/
def gapChar : Char := '-'

/-- Ambiguity symbol used by the analyzer (`"X"` in `mutation_analyzer.py`). -/
def ambigChar : Char := 'X'

/-- Residues that take part in the tally for a column: `Counter(column)`
followed by `counts.pop("-", None)` when gaps are not included
(`mutation_analyzer.py` lines 60-64). -/
def talliedResidues (includeGaps : Bool) (col : List Char) : List Char :=
  if includeGaps then col else col.filter (fun c => decide (c ≠ gapChar))

/-- Distinct elements in first-occurrence order, skipping anything already in
the accumulator of seen elements. -/
def dedupAux (seen : List Char) : List Char → List Char
  | [] => []
  | c :: rest =>
    if c ∈ seen then dedupAux seen rest else c :: dedupAux (c :: seen) rest

/-- Distinct residues in first-occurrence order, mirroring the key order of a
Python `Counter`/`dict` built from the column. -/
def dedupKeys (l : List Char) : List Char := dedupAux [] l

/-- Insert a character into an already sorted list, keeping it sorted. -/
def insertSorted (c : Char) : List Char → List Char
  | [] => [c]
  | x :: xs => if c ≤ x then c :: x :: xs else x :: insertSorted c xs

/-- Sort a list of characters ascending, mirroring Python's `sorted` on the
keys of the mutation-frequency dict (`mutation_analyzer.py` line 102). -/
def sortChars : List Char → List Char
  | [] => []
  | x :: xs => insertSorted x (sortChars xs)

/-- Round a rational to the nearest integer, ties to even: the rounding mode
of Python's builtin `round`.  This is the specification-side definition; the
executable analyzer below works in hundredths of a percent and is related to
this definition by `pctTimes100_spec`. -/
def roundHalfEven (x : ℚ) : ℤ :=
  if Int.fract x < 1 / 2 then Int.floor x
  else if 1 / 2 < Int.fract x then Int.floor x + 1
  else if Int.floor x % 2 = 0 then Int.floor x else Int.floor x + 1

/-- Python's `round(q, 2)`: round to two decimal places, half to even. -/
def pyRound2 (q : ℚ) : ℚ := (roundHalfEven (q * 100) : ℚ) / 100

/-- The value `round((c / t) * 100, 2)` scaled by 100 and computed in natural
arithmetic: the rounded percentage in hundredths of a percent.  Every value
Python's `round(_, 2)` can return is an exact multiple of `1/100` up to float
representation, so this carries the full information of the frequency. -/
def pctTimes100 (c t : ℕ) : ℕ :=
  let n := c * 10000
  let q := n / t
  let r := n % t
  if 2 * r < t then q
  else if t < 2 * r then q + 1
  else if q % 2 = 0 then q else q + 1

/-- String rendering of a non-negative two-decimal float given in hundredths
(`n = 7500` renders as `"75.0"`), as Python's `str` prints the values
produced by `round(_, 2)`: at least one fractional digit, a trailing zero in
the hundredths place dropped ("75.0", "33.33", "0.05"). -/
def pctString (n : ℕ) : String :=
  let ip := n / 100
  let fr := n % 100
  toString ip ++ "." ++
    (if fr % 10 = 0 then toString (fr / 10)
     else if fr < 10 then "0" ++ toString fr else toString fr)

/-- Count of non-ambiguous residues in the tally: `total_non_ambig`
(`mutation_analyzer.py` line 70). -/
def totalNonAmbig (includeGaps : Bool) (col : List Char) : ℕ :=
  ((talliedResidues includeGaps col).filter (fun c => decide (c ≠ ambigChar))).length

/-- Rounded percentage of one residue in hundredths of a percent:
`round((count / total_non_ambig) * 100, 2)` (`mutation_analyzer.py` line 74). -/
def freqOf (includeGaps : Bool) (col : List Char) (r : Char) : ℕ :=
  pctTimes100 ((talliedResidues includeGaps col).count r)
    (totalNonAmbig includeGaps col)

/-- The frequency map `freq_percent` as an association list in key order:
empty when the non-ambiguous total is zero, otherwise one entry per
non-ambiguous tallied residue (`mutation_analyzer.py` lines 73-77); values in
hundredths of a percent. -/
def freqPairs (includeGaps : Bool) (col : List Char) : List (Char × ℕ) :=
  if totalNonAmbig includeGaps col = 0 then []
  else ((dedupKeys (talliedResidues includeGaps col)).filter
      (fun c => decide (c ≠ ambigChar))).map
    (fun r => (r, freqOf includeGaps col r))

/-- The `Mutation Representation` string built from the frequency map, the
reference residue and the 1-based position (`mutation_analyzer.py` lines
82-116).  Conserved columns render the reference with its frequency (integer
literal `100` when the reference is absent from the map); mutated columns
render each variant as `"<ref><pos><variant> (<freq>%)"`, sorted by variant,
comma-joined, prefixed by the reference fragment and `" | "` when the
reference frequency is positive. -/
def mutationRepr (pairs : List (Char × ℕ)) (refRes : Char) (pos : ℕ) : String :=
  let mutationPairs := pairs.filter (fun p => decide (p.1 ≠ refRes))
  if mutationPairs.isEmpty then
    let refStr := match pairs.lookup refRes with
      | some q => pctString q
      | none => "100"
    String.singleton refRes ++ " (" ++ refStr ++ "%)"
  else
    let refFreq : ℕ := (pairs.lookup refRes).getD 0
    let parts := (sortChars (mutationPairs.map (fun p => p.1))).map
      (fun c => String.singleton refRes ++ toString pos ++ String.singleton c ++
        " (" ++ pctString ((pairs.lookup c).getD 0) ++ "%)")
    let disp := String.intercalate ", " parts
    if 0 < refFreq then
      String.singleton refRes ++ " (" ++ pctString refFreq ++ "%)" ++ " | " ++ disp
    else disp

/-- One output row of the analyzer (`results.append({...})`,
`mutation_analyzer.py` lines 118-126).  The raw `Counts` string column is not
modelled; frequencies are carried as exact pairs rather than their Python
string form. -/
structure PositionRow where
  position : ℕ
  reference : Char
  freqs : List (Char × ℕ)
  ambiguity : String
  representation : String
  color : String
deriving DecidableEq, Repr

/-- Analysis of a single alignment column `i` (0-based), over the sequences
of the alignment; the reference residue is taken from the first sequence
(`mutation_analyzer.py` lines 42 and 55-126). -/
def analyzeRow (includeGaps : Bool) (seqs : List (List Char)) (i : ℕ) : PositionRow :=
  let col := seqs.map (fun s => s.getD i '?')
  let tal := talliedResidues includeGaps col
  let refRes := (seqs.headD []).getD i '?'
  let pairs := freqPairs includeGaps col
  let mutationPairs := pairs.filter (fun p => decide (p.1 ≠ refRes))
  { position := i + 1
    reference := refRes
    freqs := pairs
    ambiguity := if ambigChar ∈ tal then "Low-confidence" else "High-confidence"
    representation := mutationRepr pairs refRes (i + 1)
    color := if mutationPairs.isEmpty then "Green" else "Red" }

/-- Number of alignment columns (`alignment.get_alignment_length()`); the
parsed alignment is rectangular, so this is the first sequence's length. -/
def alignmentLength (seqs : List (List Char)) : ℕ := (seqs.headD []).length

/-- The full per-position results list (`mutation_analyzer.py` lines 55-126). -/
def analyzeSeqs (includeGaps : Bool) (seqs : List (List Char)) : List PositionRow :=
  (List.range (alignmentLength seqs)).map (analyzeRow includeGaps seqs)

/-- Input to the analyzer after the file-reading stage: either a parsed
rectangular alignment or a parse failure raised by `AlignIO.read`. -/
inductive ParsedInput where
  | parsed (seqs : List (List Char))
  | malformed (msg : String)
deriving DecidableEq, Repr

/-- The fallible analyzer `analyze_mutations` (`mutation_analyzer.py`).
Parse errors and the explicit zero-sequences check (line 38-39) are caught by
the blanket `except` clause (lines 143-145) and re-raised wrapped as
`"Failed to analyze mutations: <original message>"`. -/
def analyze_mutations (includeGaps : Bool) (input : ParsedInput) :
    Except String (List PositionRow) :=
  match input with
  | .malformed msg => .error ("Failed to analyze mutations: " ++ msg)
  | .parsed seqs =>
    if seqs.length = 0 then
      .error ("Failed to analyze mutations: No sequences found in the alignment file")
    else .ok (analyzeSeqs includeGaps seqs)

/-! ### Artifact store, registry and reconciliation -/

/-- The file store: names present in the `uploads` directory and in the
separate `backups` directory. -/
structure FS where
  uploads : List String
  backups : List String
deriving DecidableEq, Repr

/-- Write a file into the uploads directory (present afterwards; the name
list is kept duplicate-free). -/
def addUpload (fs : FS) (n : String) : FS :=
  { fs with uploads := if n ∈ fs.uploads then fs.uploads else n :: fs.uploads }

/-- Write a file into the backups directory. -/
def addBackup (fs : FS) (n : String) : FS :=
  { fs with backups := if n ∈ fs.backups then fs.backups else n :: fs.backups }

/-- Delete a file from the uploads directory (`os.remove`, idempotent in the
guarded call sites). -/
def removeUpload (fs : FS) (n : String) : FS :=
  { fs with uploads := fs.uploads.filter (fun m => decide (m ≠ n)) }

/-- Delete a file from the backups directory. -/
def removeBackup (fs : FS) (n : String) : FS :=
  { fs with backups := fs.backups.filter (fun m => decide (m ≠ n)) }

/-- One registry record: a row of the `uploaded_files` table (`models.py`),
restricted to the fields the consistency subsystem uses. -/
structure Record where
  id : String
  uploadedFilePath : Option String
  resultsFile : Option String
  outputFile : Option String
  totalPositions : ℕ
  mutationCount : ℕ
  conservedCount : ℕ
deriving DecidableEq, Repr

/-- Whole system state: the registry (list of records) and the file store. -/
structure SysState where
  registry : List Record
  fs : FS
deriving DecidableEq, Repr

/-- Observable mutations performed by reconciliation: file writes (restores,
regeneration, backup synthesis), file deletions and registry deletions. -/
inductive Event where
  | restoredSource (name : String)
  | restoredResults (name : String)
  | regenerated (name : String)
  | madeBackup (name : String)
  | deletedRecord (id : String)
  | deletedFile (name : String)
deriving DecidableEq, Repr

/-- Replace every non-overlapping occurrence of `pat` by `rep` in a character
list, scanning left to right — the semantics of Python's `str.replace`.
Implemented with explicit fuel (one unit per consumed character) so that it
is structurally recursive and reduces in the kernel. -/
def replaceAux (pat rep : List Char) : ℕ → List Char → List Char
  | _, [] => []
  | 0, l => l
  | fuel + 1, c :: rest =>
    if pat ≠ [] ∧ pat.isPrefixOf (c :: rest) then
      rep ++ replaceAux pat rep fuel (rest.drop (pat.length - 1))
    else c :: replaceAux pat rep fuel rest

/-- Replace every non-overlapping occurrence of `pat` by `rep` in a string,
on its character list. -/
def listReplace (l pat rep : List Char) : List Char := replaceAux pat rep l.length l

/-- Backup name of a results artifact:
`results_path.replace('.json', '_backup.json')`
(`file_integrity_monitor.py` line 59).  Python's `str.replace` replaces every
occurrence, left to right. -/
def bakName (res : String) : String :=
  ⟨listReplace res.data (".json" : String).data ("_backup.json" : String).data⟩

/-- Shared name of the export artifact
(`mutation_analyzer.py` lines 129-130). -/
def csvName : String := "mutation_analysis_results.csv"

/-- Source-file check of one record (`file_integrity_monitor.py` lines 46-54
with `_restore_from_backup`, lines 86-99): a missing original is copied back
from the backups directory when the backup exists. -/
def checkSource (fs : FS) (r : Record) : FS × List Event :=
  match r.uploadedFilePath with
  | none => (fs, [])
  | some p =>
    if p ∈ fs.uploads then (fs, [])
    else if p ∈ fs.backups then (addUpload fs p, [Event.restoredSource p])
    else (fs, [])

/-- Results-file check of one record (`file_integrity_monitor.py` lines
56-76 with `_restore_results_from_backup`, `_regenerate_results` and
`_create_backup`): a missing results file is restored from its backup in the
uploads directory, else regenerated from the original file when that is
present (the regeneration also rewrites the shared export CSV), and a
present results file without a backup gets the backup synthesized. -/
def checkResults (fs : FS) (r : Record) : FS × List Event :=
  match r.resultsFile with
  | none => (fs, [])
  | some res =>
    let out :=
      if res ∈ fs.uploads then (fs, ([] : List Event))
      else if bakName res ∈ fs.uploads then
        (addUpload fs res, [Event.restoredResults res])
      else
        match r.uploadedFilePath with
        | some p =>
          if p ∈ fs.uploads then
            (addUpload (addUpload (addUpload fs res) (bakName res)) csvName,
              [Event.regenerated res])
          else (fs, [])
        | none => (fs, [])
    if res ∈ out.1.uploads ∧ bakName res ∉ out.1.uploads then
      (addUpload out.1 (bakName res), out.2 ++ [Event.madeBackup (bakName res)])
    else out

/-- Verification of a single record: source first, then results
(`file_integrity_monitor.py` lines 44-76). -/
def checkRecord (fs : FS) (r : Record) : FS × List Event :=
  let s := checkSource fs r
  let t := checkResults s.1 r
  (t.1, s.2 ++ t.2)

/-- Per-record verification pass over the whole registry:
`FileIntegrityMonitor.check_file_integrity`
(`file_integrity_monitor.py` lines 35-84). -/
def check_file_integrity (reg : List Record) (fs : FS) : FS × List Event :=
  match reg with
  | [] => (fs, [])
  | r :: rest =>
    let s := checkRecord fs r
    let t := check_file_integrity rest s.1
    (t.1, s.2 ++ t.2)

/-- Boolean test whether any of a record's primary artifacts is on disk:
the `has_files` flag of `clean_orphaned_database_entries`
(`database_integrity_manager.py` lines 73-86). -/
def hasFilesB (fs : FS) (r : Record) : Bool :=
  (match r.uploadedFilePath with
   | some p => decide (p ∈ fs.uploads)
   | none => false) ||
  (match r.resultsFile with
   | some res => decide (res ∈ fs.uploads)
   | none => false)

/-- Orphan record sweep: delete every record with neither its source file
nor its results file on disk
(`DatabaseIntegrityManager.clean_orphaned_database_entries`,
`database_integrity_manager.py` lines 64-99). -/
def clean_orphaned_database_entries (reg : List Record) (fs : FS) :
    List Record × List Event :=
  (reg.filter (fun r => hasFilesB fs r),
    (reg.filter (fun r => !(hasFilesB fs r))).map (fun r => Event.deletedRecord r.id))

/-- Record id parsed out of a file name by the orphan file sweep
(`database_integrity_manager.py` lines 124-131): results files are stripped
of the `results_` prefix and json suffixes (Python's replace-all); otherwise
a name containing an underscore whose first underscore-separated segment
(`filename.split('_')[0]`, here `takeWhile (· ≠ '_')` — identical for the
one-character separator) has length 36 is treated as id-prefixed. -/
def extractId (filename : String) : Option String :=
  if ("results_" : String).data.isPrefixOf filename.data then
    some ⟨listReplace (listReplace (listReplace filename.data
      ("results_" : String).data []) ("_backup.json" : String).data [])
      (".json" : String).data []⟩
  else if filename.data.contains '_' ∧
      (filename.data.takeWhile (fun c => decide (c ≠ '_'))).length = 36 then
    some ⟨filename.data.takeWhile (fun c => decide (c ≠ '_'))⟩
  else none

/-- Whether the sweep classifies a file in the uploads directory as orphaned:
its parsed id exists and belongs to no record
(`database_integrity_manager.py` lines 133-135). -/
def isOrphanB (ids : List String) (f : String) : Bool :=
  match extractId f with
  | some i => !(decide (i ∈ ids))
  | none => false

/-- Orphan file sweep over the uploads directory
(`DatabaseIntegrityManager.clean_orphaned_files`,
`database_integrity_manager.py` lines 101-152).  Only the uploads directory
is listed; the backups directory is never swept. -/
def clean_orphaned_files (reg : List Record) (fs : FS) : FS × List Event :=
  let ids := reg.map Record.id
  ({ fs with uploads := fs.uploads.filter (fun f => !(isOrphanB ids f)) },
    (fs.uploads.filter (fun f => isOrphanB ids f)).map Event.deletedFile)

/-- One full reconciliation pass: per-record verification, then the orphan
record sweep, then the orphan file sweep, as run together by the integrity
tooling (`database_integrity_manager.py` lines 255-272 runs the sweeps after
the per-record verification of `file_integrity_monitor.py`). -/
def reconcile (s : SysState) : SysState × List Event :=
  let a := check_file_integrity s.registry s.fs
  let b := clean_orphaned_database_entries s.registry a.1
  let c := clean_orphaned_files b.1 a.1
  (⟨b.1, c.1⟩, a.2 ++ b.2 ++ c.2)

/-! ### Submission (`upload_file` in `app.py`) -/

/-- Name of the permanently stored source file:
`f"{file_id}_{filename}"` (`app.py` line 170). -/
def sourceName (fileId fname : String) : String := fileId ++ "_" ++ fname

/-- Name of the results artifact: `f"results_{file_id}.json"`
(`app.py` line 197). -/
def resultsName (fileId : String) : String := "results_" ++ fileId ++ ".json"

/-- Name of the results backup artifact: `f"results_{file_id}_backup.json"`
(`app.py` line 207). -/
def resultsBackupName (fileId : String) : String :=
  "results_" ++ fileId ++ "_backup.json"

/-- Outcome of a submission as seen by the caller. -/
inductive UploadOutcome where
  | ok (rec : Record)
  | err (msg : String)
deriving DecidableEq, Repr

/-- The registry record created by a successful submission
(`app.py` lines 230-244). -/
def madeRecord (fileId fname : String) (results : List PositionRow) : Record :=
  { id := fileId
    uploadedFilePath := some (sourceName fileId fname)
    resultsFile := some (resultsName fileId)
    outputFile := some csvName
    totalPositions := results.length
    mutationCount := (results.filter (fun row => decide (row.color = "Red"))).length
    conservedCount :=
      results.length - (results.filter (fun row => decide (row.color = "Red"))).length }

/-- The file store after all artifact writes of a successful analysis and
before the registry insert (`app.py` lines 166-221): source upload and its
backup, the shared export CSV written by the analyzer, the results file, the
results backup in uploads, and the permanent results backup in backups. -/
def fsAfterArtifacts (fs : FS) (fileId fname : String) : FS :=
  let f1 := addBackup (addUpload fs (sourceName fileId fname)) (sourceName fileId fname)
  let f2 := addUpload f1 csvName
  let f3 := addUpload f2 (resultsName fileId)
  let f4 := addUpload f3 (resultsBackupName fileId)
  addBackup f4 (resultsBackupName fileId)

/-- Cleanup performed when the registry insert fails (`app.py` lines
256-277): the five files of the `cleanup_files` list are removed; the export
CSV is not in that list and is left behind. -/
def rollbackCleanup (fs : FS) (fileId fname : String) : FS :=
  let f1 := removeBackup (removeUpload fs (sourceName fileId fname)) (sourceName fileId fname)
  let f2 := removeUpload f1 (resultsName fileId)
  let f3 := removeUpload f2 (resultsBackupName fileId)
  removeBackup f3 (resultsBackupName fileId)

/-- The submission operation `upload_file` (`app.py` lines 123-293), from
the point where the file is saved.  `createOk` abstracts whether the
registry insert commits; on analyzer failure the route answers
`"Error processing file: <wrapped message>"` and deliberately keeps the
uploaded source and its backup (`app.py` lines 289-293); on insert failure
it rolls the registry back and removes the listed files. -/
def upload_file (s : SysState) (fileId fname : String) (input : ParsedInput)
    (createOk : Bool) : SysState × UploadOutcome :=
  let src := sourceName fileId fname
  let fsSrc := addBackup (addUpload s.fs src) src
  match analyze_mutations false input with
  | .error e => ({ s with fs := fsSrc }, .err ("Error processing file: " ++ e))
  | .ok results =>
    let fsArt := fsAfterArtifacts s.fs fileId fname
    let newRecord := madeRecord fileId fname results
    if createOk then
      ({ registry := newRecord :: s.registry, fs := fsArt }, .ok newRecord)
    else
      ({ s with fs := rollbackCleanup fsArt fileId fname },
        .err ("Error processing file: Database transaction failed - all files cleaned up"))

/-! ### Naming-convention hypotheses for reconciliation claims -/

/-- A record whose referenced artifact names parse back to its own id under
the sweep's naming convention.  This holds for every record the submission
path creates; reconciliation claims are proved for registries of such
records. -/
def refsOk (r : Record) : Prop :=
  (∀ p, r.uploadedFilePath = some p → extractId p = some r.id) ∧
  (∀ res, r.resultsFile = some res →
    extractId res = some r.id ∧ extractId (bakName res) = some r.id)

/-- Boolean form of `refsOk`, convenient for concrete witnesses. -/
def refsOkB (r : Record) : Bool :=
  (match r.uploadedFilePath with
   | some p => extractId p == some r.id
   | none => true) &&
  (match r.resultsFile with
   | some res => extractId res == some r.id && extractId (bakName res) == some r.id
   | none => true)

/-- A registry with pairwise distinct record ids, each record following the
naming convention. -/
def goodRegistry (reg : List Record) : Prop :=
  (reg.map Record.id).Nodup ∧ ∀ r ∈ reg, refsOk r

/-- Boolean form of `goodRegistry`. -/
def goodRegistryB (reg : List Record) : Bool :=
  (reg.map Record.id).Nodup && reg.all refsOkB

/-- A record's source reference is settled in a store: the file is present,
or no backup exists from which the check could restore it. -/
def sourceFixed (fs : FS) (r : Record) : Prop :=
  ∀ p, r.uploadedFilePath = some p → p ∈ fs.uploads ∨ p ∉ fs.backups

/-- A record's results reference is settled in a store: a present results
file already has its backup, and an absent one has neither a backup nor a
present source from which the check could restore or regenerate it. -/
def resultsFixed (fs : FS) (r : Record) : Prop :=
  ∀ res, r.resultsFile = some res →
    (res ∈ fs.uploads → bakName res ∈ fs.uploads) ∧
    (res ∉ fs.uploads → bakName res ∉ fs.uploads ∧
      ∀ p, r.uploadedFilePath = some p → p ∉ fs.uploads)

/-- A registry/store pair on which the per-record verification and the
orphan record sweep have nothing left to do. -/
def settled (reg : List Record) (fs : FS) : Prop :=
  ∀ r ∈ reg, sourceFixed fs r ∧
    (∀ res, r.resultsFile = some res →
      res ∈ fs.uploads ∧ bakName res ∈ fs.uploads) ∧
    hasFilesB fs r = true

/-- A store in which the orphan file sweep finds nothing to delete. -/
def noOrphans (reg : List Record) (fs : FS) : Prop :=
  ∀ f ∈ fs.uploads, isOrphanB (reg.map Record.id) f = false

/-! ### Concrete fixtures used in witnesses and counterexamples -/

/-- A UUID-shaped record id (36 characters, no underscore). -/
def uuidA : String := "aaaaaaaa-aaaa-aaaa-aaaa-aaaaaaaaaaaa"

/-- A second UUID-shaped record id. -/
def uuidB : String := "bbbbbbbb-bbbb-bbbb-bbbb-bbbbbbbbbbbb"

/-- A registry record as the submission path creates it, used in concrete
scenarios. -/
def sampleRecord : Record :=
  { id := uuidA
    uploadedFilePath := some (sourceName uuidA "data.fasta")
    resultsFile := some (resultsName uuidA)
    outputFile := some csvName
    totalPositions := 1
    mutationCount := 0
    conservedCount := 1 }

/-- An alignment of 20001 single-residue sequences: 20000 copies of the
reference residue `A` and one `T`.  The variant's exact share is
`100/20001` percent, below `0.005`, so it rounds to `0.00`. -/
def bigSeqs : List (List Char) := List.replicate 20000 ['A'] ++ [['T']]

/-- A concrete state whose record's results file is missing while the
results backup sits in the uploads directory. -/
def cascadeState : SysState :=
  ⟨[sampleRecord], ⟨[bakName (resultsName uuidA)], []⟩⟩

/-- A concrete state whose record's results file is present but its backup
is missing. -/
def backupState : SysState :=
  ⟨[sampleRecord], ⟨[resultsName uuidA], []⟩⟩

/-- A concrete state with a complete record plus one orphaned upload. -/
def idemState : SysState :=
  ⟨[sampleRecord], ⟨[sourceName uuidA "data.fasta", resultsName uuidA,
    "cccccccc-cccc-cccc-cccc-cccccccccccc_old.fasta"], []⟩⟩


/-! ## Lemmas: list helpers -/

theorem mem_dedupAux {c : Char} :
    ∀ (l seen : List Char), c ∈ dedupAux seen l ↔ c ∈ l ∧ c ∉ seen := by
  intro l
  induction l with
  | nil => intro seen; simp [dedupAux]
  | cons x xs ih =>
    intro seen
    by_cases hx : x ∈ seen
    · simp only [dedupAux, if_pos hx, ih, List.mem_cons]
      constructor
      · rintro ⟨h1, h2⟩; exact ⟨Or.inr h1, h2⟩
      · rintro ⟨h1 | h1, h2⟩
        · exact absurd hx (h1 ▸ h2)
        · exact ⟨h1, h2⟩
    · simp only [dedupAux, if_neg hx, List.mem_cons, ih]
      constructor
      · rintro (rfl | ⟨h1, h2⟩)
        · exact ⟨Or.inl rfl, hx⟩
        · exact ⟨Or.inr h1, fun hc => h2 (Or.inr hc)⟩
      · rintro ⟨rfl | h1, h2⟩
        · exact Or.inl rfl
        · by_cases hcx : c = x
          · exact Or.inl hcx
          · exact Or.inr ⟨h1, fun hc => hc.elim hcx h2⟩

theorem mem_dedupKeys {c : Char} {l : List Char} : c ∈ dedupKeys l ↔ c ∈ l := by
  simp [dedupKeys, mem_dedupAux]

theorem nodup_dedupAux : ∀ (l seen : List Char), (dedupAux seen l).Nodup := by
  intro l
  induction l with
  | nil => intro seen; simp [dedupAux]
  | cons x xs ih =>
    intro seen
    by_cases hx : x ∈ seen
    · simpa [dedupAux, if_pos hx] using ih seen
    · simp only [dedupAux, if_neg hx]
      refine List.nodup_cons.mpr ⟨?_, ih (x :: seen)⟩
      intro hmem
      exact ((mem_dedupAux _ _).mp hmem).2 (List.mem_cons_self _ _)

theorem nodup_dedupKeys (l : List Char) : (dedupKeys l).Nodup := nodup_dedupAux l []

theorem dedupAux_of_forall_mem :
    ∀ (l seen : List Char), (∀ x ∈ l, x ∈ seen) → dedupAux seen l = [] := by
  intro l
  induction l with
  | nil => intro seen _; rfl
  | cons x xs ih =>
    intro seen h
    have hx : x ∈ seen := h x (List.mem_cons_self _ _)
    simp only [dedupAux, if_pos hx]
    exact ih seen fun y hy => h y (List.mem_cons_of_mem _ hy)

theorem dedupKeys_all_eq {c : Char} {l : List Char} (hne : l ≠ [])
    (hall : ∀ x ∈ l, x = c) : dedupKeys l = [c] := by
  cases l with
  | nil => exact absurd rfl hne
  | cons x xs =>
    have hx : x = c := hall x (List.mem_cons_self _ _)
    subst hx
    simp only [dedupKeys, dedupAux, List.not_mem_nil, if_neg (fun h => h)]
    rw [dedupAux_of_forall_mem]
    intro y hy
    have := hall y (List.mem_cons_of_mem _ hy)
    simp [this]

theorem mem_insertSorted {c x : Char} :
    ∀ {l : List Char}, x ∈ insertSorted c l ↔ x = c ∨ x ∈ l := by
  intro l
  induction l with
  | nil => simp [insertSorted]
  | cons y ys ih =>
    by_cases h : c ≤ y
    · simp [insertSorted, if_pos h]
    · simp only [insertSorted, if_neg h, List.mem_cons, ih]
      tauto

theorem mem_sortChars {x : Char} :
    ∀ {l : List Char}, x ∈ sortChars l ↔ x ∈ l := by
  intro l
  induction l with
  | nil => simp [sortChars]
  | cons y ys ih => simp [sortChars, mem_insertSorted, ih]

theorem sorted_insertSorted {c : Char} :
    ∀ {l : List Char}, l.Sorted (· ≤ ·) → (insertSorted c l).Sorted (· ≤ ·) := by
  intro l
  induction l with
  | nil => intro _; simp [insertSorted]
  | cons y ys ih =>
    intro hs
    rw [List.sorted_cons] at hs
    by_cases h : c ≤ y
    · rw [insertSorted, if_pos h, List.sorted_cons]
      refine ⟨?_, List.sorted_cons.mpr hs⟩
      intro b hb
      rcases List.mem_cons.mp hb with rfl | hb
      · exact h
      · exact le_trans h (hs.1 b hb)
    · rw [insertSorted, if_neg h, List.sorted_cons]
      refine ⟨?_, ih hs.2⟩
      intro b hb
      rcases mem_insertSorted.mp hb with rfl | hb
      · exact le_of_not_le h
      · exact hs.1 b hb

theorem sorted_sortChars : ∀ (l : List Char), (sortChars l).Sorted (· ≤ ·) := by
  intro l
  induction l with
  | nil => simp [sortChars]
  | cons y ys ih => exact sorted_insertSorted ih

theorem nodup_insertSorted {c : Char} :
    ∀ {l : List Char}, c ∉ l → l.Nodup → (insertSorted c l).Nodup := by
  intro l
  induction l with
  | nil => intro _ _; simp [insertSorted]
  | cons y ys ih =>
    intro hc hn
    rw [List.nodup_cons] at hn
    by_cases h : c ≤ y
    · rw [insertSorted, if_pos h]
      exact List.nodup_cons.mpr ⟨hc, List.nodup_cons.mpr hn⟩
    · rw [insertSorted, if_neg h]
      refine List.nodup_cons.mpr ⟨?_, ih (fun hm => hc (List.mem_cons_of_mem _ hm)) hn.2⟩
      intro hm
      rcases mem_insertSorted.mp hm with rfl | hm
      · exact hc (List.mem_cons_self _ _)
      · exact hn.1 hm

theorem nodup_sortChars : ∀ {l : List Char}, l.Nodup → (sortChars l).Nodup := by
  intro l
  induction l with
  | nil => intro _; simp [sortChars]
  | cons y ys ih =>
    intro hn
    rw [List.nodup_cons] at hn
    exact nodup_insertSorted (fun hm => hn.1 (mem_sortChars.mp hm)) (ih hn.2)

/-! ## Lemmas: the scaled rounding agrees with exact rational rounding -/

theorem roundHalfEven_natCast_div (c t : ℕ) (ht : t ≠ 0) :
    roundHalfEven ((c * 10000 : ℕ) / (t : ℚ)) = (pctTimes100 c t : ℤ) := by
  have ht0 : (0 : ℚ) < (t : ℚ) := by
    exact_mod_cast Nat.pos_of_ne_zero ht
  set n := c * 10000 with hn
  set q := n / t with hq
  set r := n % t with hr
  have hfloor : ⌊(n : ℚ) / (t : ℚ)⌋ = (q : ℤ) := by
    rw [Rat.floor_natCast_div_natCast]
    exact (Int.ofNat_div _ _).symm
  have hmodeq : (n : ℚ) = (t : ℚ) * (q : ℚ) + (r : ℚ) := by
    exact_mod_cast (Nat.div_add_mod n t).symm
  have hfract : Int.fract ((n : ℚ) / (t : ℚ)) = (r : ℚ) / (t : ℚ) := by
    rw [Int.fract, hfloor]
    push_cast
    field_simp
    linarith [hmodeq]
  have hlt : ((r : ℚ) / (t : ℚ) < 1 / 2) ↔ 2 * r < t := by
    rw [div_lt_div_iff ht0 (by norm_num : (0 : ℚ) < 2)]
    constructor
    · intro h
      have : (2 * r : ℚ) < (t : ℚ) := by push_cast at h ⊢; linarith
      exact_mod_cast this
    · intro h
      have : (2 * r : ℚ) < (t : ℚ) := by exact_mod_cast h
      push_cast at this ⊢
      linarith
  have hgt : (1 / 2 < (r : ℚ) / (t : ℚ)) ↔ t < 2 * r := by
    rw [div_lt_div_iff (by norm_num : (0 : ℚ) < 2) ht0]
    constructor
    · intro h
      have : (t : ℚ) < (2 * r : ℚ) := by push_cast at h ⊢; linarith
      exact_mod_cast this
    · intro h
      have : (t : ℚ) < (2 * r : ℚ) := by exact_mod_cast h
      push_cast at this ⊢
      linarith
  have hpar : ((q : ℤ) % 2 = 0) ↔ q % 2 = 0 := by
    rw [show ((q : ℤ) % 2) = ((q % 2 : ℕ) : ℤ) from (Int.ofNat_mod _ _).symm]
    exact Int.natCast_eq_zero
  show roundHalfEven ((n : ℚ) / (t : ℚ)) = (pctTimes100 c t : ℤ)
  rw [roundHalfEven, pctTimes100]
  simp only [← hn, ← hq, ← hr, hfloor, hfract]
  by_cases h1 : 2 * r < t
  · rw [if_pos h1, if_pos (hlt.mpr h1)]
  · rw [if_neg h1, if_neg (fun hc => h1 (hlt.mp hc))]
    by_cases h2 : t < 2 * r
    · rw [if_pos h2, if_pos (hgt.mpr h2)]
      push_cast
      ring
    · rw [if_neg h2, if_neg (fun hc => h2 (hgt.mp hc))]
      by_cases h3 : q % 2 = 0
      · rw [if_pos h3, if_pos (hpar.mpr h3)]
      · rw [if_neg h3, if_neg (fun hc => h3 (hpar.mp hc))]
        push_cast
        ring

theorem pctTimes100_spec (c t : ℕ) (ht : t ≠ 0) :
    ((pctTimes100 c t : ℕ) : ℚ) / 100 = pyRound2 ((c : ℚ) / (t : ℚ) * 100) := by
  have hx : (c : ℚ) / (t : ℚ) * 100 * 100 = ((c * 10000 : ℕ) : ℚ) / (t : ℚ) := by
    push_cast
    ring
  rw [pyRound2, hx, roundHalfEven_natCast_div c t ht]
  norm_num

theorem lookup_map_pair {f : Char → ℕ} {c : Char} :
    ∀ {keys : List Char}, c ∈ keys →
      (keys.map (fun r => (r, f r))).lookup c = some (f c) := by
  intro keys
  induction keys with
  | nil => intro h; cases h
  | cons k ks ih =>
    intro h
    by_cases hck : c = k
    · subst hck; simp [List.lookup]
    · rcases List.mem_cons.mp h with rfl | h
      · simp [List.lookup]
      · simpa [List.lookup, beq_false_of_ne hck] using ih h

/-! ## Lemmas: the analyzer -/

theorem length_filter_add_count (l : List Char) (a : Char) :
    (l.filter (fun c => decide (c ≠ a))).length + l.count a = l.length := by
  induction l with
  | nil => rfl
  | cons x xs ih =>
    by_cases hx : x = a
    · subst hx
      simp only [List.filter_cons, List.count_cons, List.length_cons]
      rw [if_neg (by simp), if_pos (by simp)]
      omega
    · simp only [List.filter_cons, List.count_cons, List.length_cons]
      rw [if_pos (by simp [hx]), if_neg (by simp [hx])]
      simp only [List.length_cons]
      omega

theorem pctTimes100_self {t : ℕ} (ht : t ≠ 0) : pctTimes100 t t = 10000 := by
  have h1 : t * 10000 / t = 10000 := Nat.mul_div_cancel_left _ (Nat.pos_of_ne_zero ht)
  have h2 : t * 10000 % t = 0 := Nat.mul_mod_right t 10000
  simp [pctTimes100, h1, h2, Nat.pos_of_ne_zero ht]

theorem map_fst_filter_pairs (keys : List Char) (f : Char → ℕ) (r0 : Char) :
    (((keys.map (fun r => (r, f r))).filter (fun p => decide (p.1 ≠ r0))).map Prod.fst) =
      keys.filter (fun c => decide (c ≠ r0)) := by
  induction keys with
  | nil => rfl
  | cons k ks ih =>
    simp only [List.map_cons, List.filter_cons]
    by_cases hk : k = r0
    · rw [if_neg (by simp [hk]), if_neg (by simp [hk])]
      exact ih
    · rw [if_pos (by simp [hk]), if_pos (by simp [hk])]
      simp only [List.map_cons]
      rw [ih]

theorem freqPairs_mem {ig : Bool} {col : List Char} {p : Char × ℕ}
    (hp : p ∈ freqPairs ig col) :
    p.1 ≠ ambigChar ∧ p.1 ∈ talliedResidues ig col ∧
      p.2 = freqOf ig col p.1 ∧ totalNonAmbig ig col ≠ 0 := by
  by_cases h0 : totalNonAmbig ig col = 0
  · rw [freqPairs, if_pos h0] at hp
    cases hp
  · rw [freqPairs, if_neg h0] at hp
    rcases List.mem_map.mp hp with ⟨r, hr, hre⟩
    rcases List.mem_filter.mp hr with ⟨hrk, hrx⟩
    have hx : r ≠ ambigChar := by simpa using hrx
    refine ⟨?_, ?_, ?_, h0⟩
    · rw [← hre]; exact hx
    · rw [← hre]
      exact mem_dedupKeys.mp hrk
    · rw [← hre]

theorem freqPairs_complete {ig : Bool} {col : List Char} {c : Char}
    (h0 : totalNonAmbig ig col ≠ 0) (hc : c ∈ talliedResidues ig col)
    (hx : c ≠ ambigChar) : (c, freqOf ig col c) ∈ freqPairs ig col := by
  rw [freqPairs, if_neg h0]
  exact List.mem_map.mpr ⟨c,
    List.mem_filter.mpr ⟨mem_dedupKeys.mpr hc, by simpa using hx⟩, rfl⟩

theorem freqPairs_lookup {ig : Bool} {col : List Char} {c : Char}
    (h0 : totalNonAmbig ig col ≠ 0) (hc : c ∈ talliedResidues ig col)
    (hx : c ≠ ambigChar) :
    (freqPairs ig col).lookup c = some (freqOf ig col c) := by
  rw [freqPairs, if_neg h0]
  exact lookup_map_pair
    (List.mem_filter.mpr ⟨mem_dedupKeys.mpr hc, by simpa using hx⟩)

theorem analyzeRow_freqs (ig : Bool) (seqs : List (List Char)) (i : ℕ) :
    (analyzeRow ig seqs i).freqs = freqPairs ig (seqs.map (fun s => s.getD i '?')) := rfl

theorem analyzeRow_reference (ig : Bool) (seqs : List (List Char)) (i : ℕ) :
    (analyzeRow ig seqs i).reference = (seqs.headD []).getD i '?' := rfl

theorem analyzeRow_color_green_iff (ig : Bool) (seqs : List (List Char)) (i : ℕ) :
    (analyzeRow ig seqs i).color = "Green" ↔
      ∀ c ∈ talliedResidues ig (seqs.map (fun s => s.getD i '?')),
        c = ambigChar ∨ c = (analyzeRow ig seqs i).reference := by
  set col := seqs.map (fun s => s.getD i '?') with hcol
  set refRes := (seqs.headD []).getD i '?' with href
  have hcolor : (analyzeRow ig seqs i).color =
      (if ((freqPairs ig col).filter (fun p => decide (p.1 ≠ refRes))).isEmpty
        then "Green" else "Red") := rfl
  have hrefeq : (analyzeRow ig seqs i).reference = refRes := rfl
  rw [hcolor, hrefeq]
  by_cases hemp : ((freqPairs ig col).filter (fun p => decide (p.1 ≠ refRes))).isEmpty
  · rw [if_pos hemp]
    simp only [true_iff, eq_self_iff_true]
    intro c hc
    by_cases hx : c = ambigChar
    · exact Or.inl hx
    · by_cases h0 : totalNonAmbig ig col = 0
      · exfalso
        have : c ∈ (talliedResidues ig col).filter (fun d => decide (d ≠ ambigChar)) :=
          List.mem_filter.mpr ⟨hc, by simpa using hx⟩
        have hlen : ((talliedResidues ig col).filter
            (fun d => decide (d ≠ ambigChar))).length ≠ 0 :=
          fun hz => by
            rw [List.length_eq_zero] at hz
            rw [hz] at this
            cases this
        exact hlen h0
      · right
        by_contra hcr
        have hmem : (c, freqOf ig col c) ∈
            (freqPairs ig col).filter (fun p => decide (p.1 ≠ refRes)) :=
          List.mem_filter.mpr ⟨freqPairs_complete h0 hc hx, by simpa using hcr⟩
        rw [List.isEmpty_iff] at hemp
        rw [hemp] at hmem
        cases hmem
  · rw [if_neg hemp]
    constructor
    · intro h
      exact absurd h (by decide)
    · intro hall
      exfalso
      apply hemp
      rw [List.isEmpty_iff, List.filter_eq_nil]
      intro p hp
      rcases freqPairs_mem hp with ⟨hx, htal, _, _⟩
      rcases hall p.1 htal with h | h
      · exact absurd h hx
      · simp [h]

theorem unanimous_column (ig : Bool) (seqs : List (List Char)) (i : ℕ) (c : Char)
    (hne : seqs ≠ []) (hall : ∀ s ∈ seqs, s.getD i '?' = c)
    (hx : c ≠ ambigChar) (hg : c ≠ gapChar) :
    (analyzeRow ig seqs i).color = "Green" ∧
      (analyzeRow ig seqs i).representation = String.singleton c ++ " (100.0%)" := by
  set col := seqs.map (fun s => s.getD i '?') with hcol
  have hallcol : ∀ x ∈ col, x = c := by
    intro x hxm
    rcases List.mem_map.mp hxm with ⟨s, hs, rfl⟩
    exact hall s hs
  have hcolne : col ≠ [] := by
    rw [hcol]
    exact fun h => hne (List.map_eq_nil.mp h)
  have htal : talliedResidues ig col = col := by
    cases ig with
    | true => rfl
    | false =>
      rw [talliedResidues]
      simp only [Bool.false_eq_true, if_false]
      rw [List.filter_eq_self]
      intro a ha
      simpa using (hallcol a ha) ▸ hg
  have htot : totalNonAmbig ig col = col.length := by
    rw [totalNonAmbig, htal]
    congr 1
    rw [List.filter_eq_self]
    intro a ha
    simpa using (hallcol a ha) ▸ hx
  have h0 : totalNonAmbig ig col ≠ 0 := by
    rw [htot]
    intro h
    exact hcolne (List.length_eq_zero.mp h)
  have hkeys : dedupKeys (talliedResidues ig col) = [c] := by
    rw [htal]
    exact dedupKeys_all_eq hcolne hallcol
  have hcount : (talliedResidues ig col).count c = col.length := by
    rw [htal]
    exact List.count_eq_length.mpr fun b hb => ((hallcol b hb).symm)
  have hfreq : freqOf ig col c = 10000 := by
    rw [freqOf, hcount, htot]
    exact pctTimes100_self (by
      intro h
      exact hcolne (List.length_eq_zero.mp h))
  have hpairs : freqPairs ig col = [(c, 10000)] := by
    rw [freqPairs, if_neg h0, hkeys]
    simp [hfreq, hx]
  have hrefRes : (seqs.headD []).getD i '?' = c := by
    cases seqs with
    | nil => exact absurd rfl hne
    | cons s0 ss => exact hall s0 (List.mem_cons_self _ _)
  have hmut : (freqPairs ig col).filter
      (fun p => decide (p.1 ≠ (seqs.headD []).getD i '?')) = [] := by
    rw [hpairs, hrefRes]
    simp
  constructor
  · show (if ((freqPairs ig col).filter
        (fun p => decide (p.1 ≠ (seqs.headD []).getD i '?'))).isEmpty
      then "Green" else "Red") = "Green"
    rw [hmut]
    rfl
  · show mutationRepr (freqPairs ig col) ((seqs.headD []).getD i '?') (i + 1) =
      String.singleton c ++ " (100.0%)"
    rw [hpairs, hrefRes]
    have hstep : mutationRepr [(c, (10000 : ℕ))] c (i + 1) =
        String.singleton c ++ " (" ++ pctString 10000 ++ "%)" := by
      simp [mutationRepr, List.lookup]
    rw [hstep]
    have hps : pctString 10000 = "100.0" := by decide
    rw [hps, String.append_assoc, String.append_assoc]
    congr 1

theorem dedupAux_replicate_absorb {a : Char} {seen l : List Char} (ha : a ∈ seen) :
    ∀ n, dedupAux seen (List.replicate n a ++ l) = dedupAux seen l := by
  intro n
  induction n with
  | zero => rfl
  | succ m ih =>
    rw [List.replicate_succ, List.cons_append]
    simp only [dedupAux, if_pos ha]
    exact ih

theorem two_residue_column (a b : Char) (n : ℕ) (seqs : List (List Char))
    (hseqs : seqs = List.replicate (n + 1) [a] ++ [[b]])
    (hab : a ≠ b) (hag : a ≠ gapChar) (hax : a ≠ ambigChar)
    (hbg : b ≠ gapChar) (hbx : b ≠ ambigChar) :
    (analyzeRow false seqs 0).reference = a ∧
    (analyzeRow false seqs 0).freqs =
      [(a, pctTimes100 (n + 1) (n + 2)), (b, pctTimes100 1 (n + 2))] ∧
    (analyzeRow false seqs 0).color = "Red" := by
  have hcol : seqs.map (fun s => s.getD 0 '?') = List.replicate (n + 1) a ++ [b] := by
    rw [hseqs]
    simp
  set col := seqs.map (fun s => s.getD 0 '?') with hcoldef
  have htal : talliedResidues false col = List.replicate (n + 1) a ++ [b] := by
    rw [talliedResidues, hcol]
    simp only [Bool.false_eq_true, if_false, List.filter_append]
    rw [List.filter_replicate_of_pos (by simpa using hag)]
    simp [hbg]
  have htot : totalNonAmbig false col = n + 2 := by
    rw [totalNonAmbig, htal, List.filter_append]
    rw [List.filter_replicate_of_pos (by simpa using hax)]
    simp [hbx]
  have htot0 : totalNonAmbig false col ≠ 0 := by
    rw [htot]
    exact Nat.succ_ne_zero _
  have hkeys : dedupKeys (talliedResidues false col) = [a, b] := by
    rw [htal, dedupKeys, List.replicate_succ, List.cons_append]
    simp only [dedupAux, List.not_mem_nil, if_neg (fun h => h)]
    rw [dedupAux_replicate_absorb (List.mem_cons_self a [])]
    simp only [dedupAux, List.mem_cons, List.not_mem_nil]
    rw [if_neg (by simp [Ne.symm hab])]
  have hca : (talliedResidues false col).count a = n + 1 := by
    rw [htal, List.count_append, List.count_replicate_self]
    have h1 : List.count a [b] = 0 := List.count_eq_zero.mpr (by simp [hab])
    rw [h1]
  have hcb : (talliedResidues false col).count b = 1 := by
    rw [htal, List.count_append]
    have h1 : List.count b (List.replicate (n + 1) a) = 0 :=
      List.count_eq_zero.mpr (by simp [Ne.symm hab])
    have h2 : List.count b [b] = 1 := by simp
    rw [h1, h2]
  have hfa : freqOf false col a = pctTimes100 (n + 1) (n + 2) := by
    rw [freqOf, hca, htot]
  have hfb : freqOf false col b = pctTimes100 1 (n + 2) := by
    rw [freqOf, hcb, htot]
  have hpairs : freqPairs false col =
      [(a, pctTimes100 (n + 1) (n + 2)), (b, pctTimes100 1 (n + 2))] := by
    rw [freqPairs, if_neg htot0, hkeys]
    simp only [List.filter_cons, List.filter_nil]
    rw [if_pos (by simpa using hax), if_pos (by simpa using hbx)]
    simp [hfa, hfb]
  have href : (seqs.headD []).getD 0 '?' = a := by
    rw [hseqs, List.replicate_succ, List.cons_append]
    rfl
  refine ⟨href, ?_, ?_⟩
  · show freqPairs false col = _
    exact hpairs
  · show (if ((freqPairs false col).filter
        (fun p => decide (p.1 ≠ (seqs.headD []).getD 0 '?'))).isEmpty
      then "Green" else "Red") = "Red"
    rw [hpairs, href]
    have : ([(a, pctTimes100 (n + 1) (n + 2)), (b, pctTimes100 1 (n + 2))].filter
        (fun p => decide (p.1 ≠ a))) = [(b, pctTimes100 1 (n + 2))] := by
      simp [Ne.symm hab]
    rw [this]
    rfl

/-! ## Claim C8: frequency definition -/

/-- Claim C8 (confirmed).  For every alignment column, each frequency stored
by the analyzer equals the residue's count divided by the non-ambiguous
total, times 100, rounded (half to even) to two decimal places; only
non-ambiguous residues get entries and every tallied non-ambiguous residue
gets one; when the non-ambiguous total is zero the frequency map is empty;
and the denominator excludes exactly the ambiguity symbol occurrences,
whatever the gap-inclusion setting. -/
theorem frequency_spec (ig : Bool) (seqs : List (List Char)) (i : ℕ) :
    (∀ p ∈ (analyzeRow ig seqs i).freqs, p.1 ≠ ambigChar ∧
      ((p.2 : ℚ) / 100 =
        pyRound2
          (((talliedResidues ig (seqs.map (fun s => s.getD i '?'))).count p.1 : ℚ) /
            (totalNonAmbig ig (seqs.map (fun s => s.getD i '?')) : ℚ) * 100))) ∧
    (totalNonAmbig ig (seqs.map (fun s => s.getD i '?')) ≠ 0 →
      ∀ c ∈ talliedResidues ig (seqs.map (fun s => s.getD i '?')), c ≠ ambigChar →
        (c, freqOf ig (seqs.map (fun s => s.getD i '?')) c) ∈ (analyzeRow ig seqs i).freqs) ∧
    (totalNonAmbig ig (seqs.map (fun s => s.getD i '?')) = 0 →
      (analyzeRow ig seqs i).freqs = []) ∧
    (totalNonAmbig ig (seqs.map (fun s => s.getD i '?')) +
        (talliedResidues ig (seqs.map (fun s => s.getD i '?'))).count ambigChar =
      (talliedResidues ig (seqs.map (fun s => s.getD i '?'))).length) := by
  set col := seqs.map (fun s => s.getD i '?') with hcol
  refine ⟨?_, ?_, ?_, ?_⟩
  · intro p hp
    rw [analyzeRow_freqs] at hp
    rcases freqPairs_mem hp with ⟨hx, _, hval, h0⟩
    refine ⟨hx, ?_⟩
    rw [hval, freqOf, pctTimes100_spec _ _ h0]
  · intro h0 c hc hx
    rw [analyzeRow_freqs]
    exact freqPairs_complete h0 hc hx
  · intro h0
    rw [analyzeRow_freqs, freqPairs, if_pos h0]
  · exact length_filter_add_count _ _

/-- Witness for `frequency_spec`: instantiated on a two-sequence column with
one `A` and one `T`, whose stored frequency for `A` is 50% and satisfies the
rounded-quotient equation. -/
theorem frequency_spec_witness :
    ('A', (5000 : ℕ)).1 ≠ ambigChar ∧
      (((5000 : ℕ) : ℚ) / 100 =
        pyRound2
          (((talliedResidues false ([[ 'A' ], [ 'T' ]].map (fun s => s.getD 0 '?'))).count 'A' : ℚ) /
            (totalNonAmbig false ([[ 'A' ], [ 'T' ]].map (fun s => s.getD 0 '?')) : ℚ) * 100)) :=
  (frequency_spec false [['A'], ['T']] 0).1 ('A', 5000) (by decide)

/-! ## Claim C9: conserved/mutated classification -/

/-- Counterexample to claim C9 as stated.  In a 20001-sequence column with
20000 copies of the reference `A` and a single `T`, the variant's rounded
frequency is `0.0` — every observed non-reference residue has frequency 0 —
yet the analyzer classifies the column "Red", not "Green": the code tests
whether the non-reference part of the frequency map is empty, not whether
its values are zero. -/
theorem conserved_zero_frequency_counterexample :
    (analyzeRow false bigSeqs 0).reference = 'A' ∧
    ((analyzeRow false bigSeqs 0).freqs.lookup 'T') = some 0 ∧
    (∀ p ∈ (analyzeRow false bigSeqs 0).freqs,
      p.1 ≠ (analyzeRow false bigSeqs 0).reference → p.2 = 0) ∧
    (analyzeRow false bigSeqs 0).color = "Red" ∧
    (analyzeRow false bigSeqs 0).color ≠ "Green" := by
  have hseq : bigSeqs = List.replicate (19999 + 1) ['A'] ++ [['T']] := rfl
  obtain ⟨href, hfreqs, hcolor⟩ :=
    two_residue_column 'A' 'T' 19999 bigSeqs hseq (by decide) (by decide)
      (by decide) (by decide) (by decide)
  have hT : pctTimes100 1 (19999 + 2) = 0 := by decide
  refine ⟨href, ?_, ?_, hcolor, ?_⟩
  · rw [hfreqs, hT]
    simp [List.lookup]
  · intro p hp hpref
    rw [hfreqs] at hp
    rw [href] at hpref
    rcases List.mem_cons.mp hp with rfl | hp
    · exact absurd rfl hpref
    · rcases List.mem_cons.mp hp with rfl | hp
      · exact hT
      · cases hp
  · rw [hcolor]
    decide

/-- Claim C9 (amended).  A column is classified "Green" exactly when no
tallied residue other than the reference survives the ambiguity filtering —
an observed non-reference residue whose rounded frequency is 0.0 still makes
the column "Red" — and a column on which all sequences agree on a
non-ambiguous, non-gap residue is "Green" with representation
`"<residue> (100.0%)"`. -/
theorem conserved_classification_rule :
    (∀ (ig : Bool) (seqs : List (List Char)) (i : ℕ),
      (analyzeRow ig seqs i).color = "Green" ↔
        ∀ c ∈ talliedResidues ig (seqs.map (fun s => s.getD i '?')),
          c = ambigChar ∨ c = (analyzeRow ig seqs i).reference) ∧
    (∀ (ig : Bool) (seqs : List (List Char)) (i : ℕ) (c : Char),
      seqs ≠ [] → (∀ s ∈ seqs, s.getD i '?' = c) →
      c ≠ ambigChar → c ≠ gapChar →
      (analyzeRow ig seqs i).color = "Green" ∧
        (analyzeRow ig seqs i).representation = String.singleton c ++ " (100.0%)") :=
  ⟨analyzeRow_color_green_iff, unanimous_column⟩

/-- Witness for `conserved_classification_rule`: a two-sequence unanimous
`G` column is "Green" with representation `"G (100.0%)"`. -/
theorem conserved_classification_rule_witness :
    (analyzeRow false [['G'], ['G']] 0).color = "Green" ∧
      (analyzeRow false [['G'], ['G']] 0).representation =
        String.singleton 'G' ++ " (100.0%)" :=
  conserved_classification_rule.2 false [['G'], ['G']] 0 'G'
    (by decide) (by decide) (by decide) (by decide)

/-! ## Claim C2: mutation representation format -/

/-- Counterexample to claim C2 as stated.  For the column with residue
counts `{A: 3, T: 1}` and reference `A` at position 1, the analyzer output
is `"A (75.0%) | A1T (25.0%)"` — a reference-frequency fragment, a `" | "`
separator, and a space before the parenthesis — not `"A1T(25.0%)"`. -/
theorem mutated_representation_example_counterexample :
    ((analyzeSeqs false [['A'], ['A'], ['A'], ['T']]).map PositionRow.representation =
      ["A (75.0%) | A1T (25.0%)"]) ∧
    ((analyzeSeqs false [['A'], ['A'], ['A'], ['T']]).map PositionRow.color = ["Red"]) ∧
    "A (75.0%) | A1T (25.0%)" ≠ "A1T(25.0%)" := by
  decide

/-- Claim C2 (amended).  For every column classified mutated, the
representation lists one fragment per surviving non-reference residue,
formatted `"<ref><position><variant> (<freq>%)"` with a space before the
parenthesis, joined by `", "` and ordered by ascending variant symbol; when
the reference residue has positive frequency the fragment list is prefixed
by `"<ref> (<ref-freq>%) | "`. -/
theorem mutated_representation_format (ig : Bool) (seqs : List (List Char)) (i : ℕ)
    (hred : (analyzeRow ig seqs i).color = "Red") :
    ∃ vs : List Char,
      List.Sorted (· ≤ ·) vs ∧ vs.Nodup ∧
      (∀ c, c ∈ vs ↔ (c ∈ talliedResidues ig (seqs.map (fun s => s.getD i '?')) ∧
        c ≠ ambigChar ∧ c ≠ (analyzeRow ig seqs i).reference)) ∧
      (analyzeRow ig seqs i).representation =
        (if 0 < (((analyzeRow ig seqs i).freqs.lookup
            (analyzeRow ig seqs i).reference).getD 0 : ℕ) then
          String.singleton (analyzeRow ig seqs i).reference ++ " (" ++
            pctString (((analyzeRow ig seqs i).freqs.lookup
              (analyzeRow ig seqs i).reference).getD 0) ++ "%)" ++ " | " ++
            String.intercalate ", " (vs.map (fun c =>
              String.singleton (analyzeRow ig seqs i).reference ++ toString (i + 1) ++
                String.singleton c ++ " (" ++
                pctString (((analyzeRow ig seqs i).freqs.lookup c).getD 0) ++ "%)"))
        else
          String.intercalate ", " (vs.map (fun c =>
            String.singleton (analyzeRow ig seqs i).reference ++ toString (i + 1) ++
              String.singleton c ++ " (" ++
              pctString (((analyzeRow ig seqs i).freqs.lookup c).getD 0) ++ "%)"))) := by
  set col := seqs.map (fun s => s.getD i '?') with hcol
  set refRes := (seqs.headD []).getD i '?' with hrefdef
  have hrefeq : (analyzeRow ig seqs i).reference = refRes := rfl
  have hfreqeq : (analyzeRow ig seqs i).freqs = freqPairs ig col := rfl
  have hie : ((freqPairs ig col).filter (fun p => decide (p.1 ≠ refRes))).isEmpty = false := by
    by_contra h
    have h' : ((freqPairs ig col).filter
        (fun p => decide (p.1 ≠ refRes))).isEmpty = true := by
      revert h
      cases ((freqPairs ig col).filter (fun p => decide (p.1 ≠ refRes))).isEmpty <;> simp
    have : (analyzeRow ig seqs i).color = "Green" := by
      show (if ((freqPairs ig col).filter
          (fun p => decide (p.1 ≠ refRes))).isEmpty then "Green" else "Red") = "Green"
      rw [h']
      rfl
    rw [hred] at this
    exact absurd this (by decide)
  have htot0 : totalNonAmbig ig col ≠ 0 := by
    intro h0
    rw [freqPairs, if_pos h0] at hie
    simp at hie
  have hkeysmap : ((freqPairs ig col).filter
      (fun p => decide (p.1 ≠ refRes))).map Prod.fst =
      ((dedupKeys (talliedResidues ig col)).filter
        (fun c => decide (c ≠ ambigChar))).filter (fun c => decide (c ≠ refRes)) := by
    rw [freqPairs, if_neg htot0]
    exact map_fst_filter_pairs _ _ _
  refine ⟨sortChars (((freqPairs ig col).filter
    (fun p => decide (p.1 ≠ refRes))).map Prod.fst), sorted_sortChars _, ?_, ?_, ?_⟩
  · apply nodup_sortChars
    rw [hkeysmap]
    exact ((nodup_dedupKeys _).filter _).filter _
  · intro c
    rw [mem_sortChars, hkeysmap, hrefeq]
    constructor
    · intro hc
      rcases List.mem_filter.mp hc with ⟨hc1, hc2⟩
      rcases List.mem_filter.mp hc1 with ⟨hc3, hc4⟩
      exact ⟨mem_dedupKeys.mp hc3, by simpa using hc4, by simpa using hc2⟩
    · rintro ⟨h1, h2, h3⟩
      exact List.mem_filter.mpr ⟨List.mem_filter.mpr
        ⟨mem_dedupKeys.mpr h1, by simpa using h2⟩, by simpa using h3⟩
  · show mutationRepr (freqPairs ig col) refRes (i + 1) = _
    rw [mutationRepr]
    simp only [hie, Bool.false_eq_true, if_false, hrefeq, hfreqeq]

/-- Witness for `mutated_representation_format`: instantiated on the
`{A: 3, T: 1}` column at position 1. -/
theorem mutated_representation_format_witness :
    ∃ vs : List Char,
      List.Sorted (· ≤ ·) vs ∧ vs.Nodup ∧
      (∀ c, c ∈ vs ↔
        (c ∈ talliedResidues false ([['A'], ['A'], ['A'], ['T']].map
            (fun s => s.getD 0 '?')) ∧
          c ≠ ambigChar ∧ c ≠ (analyzeRow false [['A'], ['A'], ['A'], ['T']] 0).reference)) ∧
      (analyzeRow false [['A'], ['A'], ['A'], ['T']] 0).representation =
        (if 0 < (((analyzeRow false [['A'], ['A'], ['A'], ['T']] 0).freqs.lookup
            (analyzeRow false [['A'], ['A'], ['A'], ['T']] 0).reference).getD 0 : ℕ) then
          String.singleton (analyzeRow false [['A'], ['A'], ['A'], ['T']] 0).reference ++
            " (" ++
            pctString (((analyzeRow false [['A'], ['A'], ['A'], ['T']] 0).freqs.lookup
              (analyzeRow false [['A'], ['A'], ['A'], ['T']] 0).reference).getD 0) ++
            "%)" ++ " | " ++
            String.intercalate ", " (vs.map (fun c =>
              String.singleton (analyzeRow false [['A'], ['A'], ['A'], ['T']] 0).reference ++
                toString (0 + 1) ++ String.singleton c ++ " (" ++
                pctString (((analyzeRow false [['A'], ['A'], ['A'], ['T']] 0).freqs.lookup
                  c).getD 0) ++ "%)"))
        else
          String.intercalate ", " (vs.map (fun c =>
            String.singleton (analyzeRow false [['A'], ['A'], ['A'], ['T']] 0).reference ++
              toString (0 + 1) ++ String.singleton c ++ " (" ++
              pctString (((analyzeRow false [['A'], ['A'], ['A'], ['T']] 0).freqs.lookup
                c).getD 0) ++ "%)"))) :=
  mutated_representation_format false [['A'], ['A'], ['A'], ['T']] 0 (by decide)

/-! ## Claim C10: summary-statistics invariant -/

/-- Claim C10 (confirmed).  Every record a successful submission creates
satisfies `mutationCount + conservedCount = totalPositions`, and every
analyzer output row is tagged with exactly one of the two colors. -/
theorem record_stats_consistent (s : SysState) (fileId fname : String)
    (input : ParsedInput) (createOk : Bool) (newRec : Record)
    (h : (upload_file s fileId fname input createOk).2 = .ok newRec) :
    newRec.mutationCount + newRec.conservedCount = newRec.totalPositions ∧
      newRec.mutationCount ≤ newRec.totalPositions ∧
      (∀ (ig : Bool) (seqs : List (List Char)),
        ∀ row ∈ analyzeSeqs ig seqs, row.color = "Red" ∨ row.color = "Green") := by
  refine ⟨?_, ?_, ?_⟩
  case _ =>
    rw [upload_file] at h
    rcases hinp : analyze_mutations false input with e | results
    · rw [hinp] at h
      cases h
    · rw [hinp] at h
      rcases hc : createOk with _ | _
      · rw [hc] at h
        simp at h
      · rw [hc] at h
        simp only [if_true] at h
        cases h
        show (madeRecord fileId fname results).mutationCount +
            (madeRecord fileId fname results).conservedCount =
          (madeRecord fileId fname results).totalPositions
        have hle : (results.filter (fun row => decide (row.color = "Red"))).length ≤
            results.length := List.length_filter_le _ _
        show (results.filter (fun row => decide (row.color = "Red"))).length +
            (results.length - (results.filter (fun row => decide (row.color = "Red"))).length) =
          results.length
        omega
  case _ =>
    rw [upload_file] at h
    rcases hinp : analyze_mutations false input with e | results
    · rw [hinp] at h
      cases h
    · rw [hinp] at h
      rcases hc : createOk with _ | _
      · rw [hc] at h
        simp at h
      · rw [hc] at h
        simp only [if_true] at h
        cases h
        show (results.filter (fun row => decide (row.color = "Red"))).length ≤ results.length
        exact List.length_filter_le _ _
  case _ =>
    intro ig seqs row hrow
    rcases List.mem_map.mp hrow with ⟨j, _, hje⟩
    rw [← hje]
    by_cases hemp : ((freqPairs ig (seqs.map (fun s => s.getD j '?'))).filter
        (fun p => decide (p.1 ≠ (seqs.headD []).getD j '?'))).isEmpty
    · right
      show (if ((freqPairs ig (seqs.map (fun s => s.getD j '?'))).filter
          (fun p => decide (p.1 ≠ (seqs.headD []).getD j '?'))).isEmpty
        then "Green" else "Red") = "Green"
      rw [if_pos hemp]
    · left
      show (if ((freqPairs ig (seqs.map (fun s => s.getD j '?'))).filter
          (fun p => decide (p.1 ≠ (seqs.headD []).getD j '?'))).isEmpty
        then "Green" else "Red") = "Red"
      rw [if_neg hemp]

/-- Witness for `record_stats_consistent`: a concrete successful submission
of a two-sequence, one-column alignment. -/
theorem record_stats_consistent_witness :
    (madeRecord uuidA "f.fasta" (analyzeSeqs false [['A'], ['T']])).mutationCount +
        (madeRecord uuidA "f.fasta" (analyzeSeqs false [['A'], ['T']])).conservedCount =
      (madeRecord uuidA "f.fasta" (analyzeSeqs false [['A'], ['T']])).totalPositions :=
  (record_stats_consistent ⟨[], ⟨[], []⟩⟩ uuidA "f.fasta" (.parsed [['A'], ['T']]) true
    (madeRecord uuidA "f.fasta" (analyzeSeqs false [['A'], ['T']])) (by decide)).1

/-! ## Claim C3: input errors -/

/-- Counterexample to claim C3 as stated.  A submission whose input cannot
be parsed does not surface the parse error verbatim: the analyzer wraps it
as `"Failed to analyze mutations: ..."` and the route wraps that again; and
the failed submission leaves persisted state behind — the uploaded source
artifact and its backup are deliberately kept. -/
theorem upload_error_verbatim_counterexample :
    ((upload_file ⟨[], ⟨[], []⟩⟩ uuidA "f.fasta" (.malformed "boom") true).2 =
      .err "Error processing file: Failed to analyze mutations: boom") ∧
    ((upload_file ⟨[], ⟨[], []⟩⟩ uuidA "f.fasta" (.malformed "boom") true).2 ≠
      .err "boom") ∧
    (sourceName uuidA "f.fasta" ∈
      (upload_file ⟨[], ⟨[], []⟩⟩ uuidA "f.fasta" (.malformed "boom") true).1.fs.uploads) ∧
    (sourceName uuidA "f.fasta" ∈
      (upload_file ⟨[], ⟨[], []⟩⟩ uuidA "f.fasta" (.malformed "boom") true).1.fs.backups) ∧
    ((⟨[], ⟨[], []⟩⟩ : SysState).fs.uploads = []) := by
  decide

/-- Claim C3 (amended).  Unparseable and empty inputs fail the submission,
but the error reaches the caller wrapped — first by the analyzer's blanket
handler as `"Failed to analyze mutations: <original>"`, then by the route as
`"Error processing file: ..."` — and the failed submission leaves partial
state: the uploaded source artifact and its backup are kept while no
registry entry is created. -/
theorem upload_error_wrapped_and_partial_state (s : SysState)
    (fileId fname : String) (createOk : Bool) :
    (∀ msg, (upload_file s fileId fname (.malformed msg) createOk).2 =
        .err ("Error processing file: Failed to analyze mutations: " ++ msg) ∧
      (upload_file s fileId fname (.malformed msg) createOk).1.registry = s.registry ∧
      sourceName fileId fname ∈
        (upload_file s fileId fname (.malformed msg) createOk).1.fs.uploads ∧
      sourceName fileId fname ∈
        (upload_file s fileId fname (.malformed msg) createOk).1.fs.backups) ∧
    ((upload_file s fileId fname (.parsed []) createOk).2 =
        .err ("Error processing file: Failed to analyze mutations: No sequences found in the alignment file") ∧
      (upload_file s fileId fname (.parsed []) createOk).1.registry = s.registry) := by
  constructor
  · intro msg
    refine ⟨rfl, rfl, ?_, ?_⟩
    · show sourceName fileId fname ∈
        (addBackup (addUpload s.fs (sourceName fileId fname)) (sourceName fileId fname)).uploads
      show sourceName fileId fname ∈
        (addUpload s.fs (sourceName fileId fname)).uploads
      rw [addUpload]
      by_cases h : sourceName fileId fname ∈ s.fs.uploads
      · simpa [if_pos h] using h
      · simp [if_neg h]
    · show sourceName fileId fname ∈
        (addBackup (addUpload s.fs (sourceName fileId fname)) (sourceName fileId fname)).backups
      rw [addBackup]
      by_cases h : sourceName fileId fname ∈ (addUpload s.fs (sourceName fileId fname)).backups
      · simpa [if_pos h] using h
      · simp [if_neg h]
  · exact ⟨rfl, rfl⟩

/-- Witness for `upload_error_wrapped_and_partial_state`: instantiated on an
empty initial state and the message "boom". -/
theorem upload_error_wrapped_witness :
    (upload_file ⟨[], ⟨[], []⟩⟩ uuidB "g.fasta" (.malformed "boom") false).2 =
        .err ("Error processing file: Failed to analyze mutations: " ++ "boom") ∧
      (upload_file ⟨[], ⟨[], []⟩⟩ uuidB "g.fasta" (.malformed "boom") false).1.registry = [] ∧
      sourceName uuidB "g.fasta" ∈
        (upload_file ⟨[], ⟨[], []⟩⟩ uuidB "g.fasta" (.malformed "boom") false).1.fs.uploads ∧
      sourceName uuidB "g.fasta" ∈
        (upload_file ⟨[], ⟨[], []⟩⟩ uuidB "g.fasta" (.malformed "boom") false).1.fs.backups :=
  (upload_error_wrapped_and_partial_state ⟨[], ⟨[], []⟩⟩ uuidB "g.fasta" false).1 "boom"

/-! ## Lemmas: file-store operations -/

theorem mem_addUpload {fs : FS} {n m : String} :
    m ∈ (addUpload fs n).uploads ↔ m = n ∨ m ∈ fs.uploads := by
  rw [addUpload]
  by_cases h : n ∈ fs.uploads
  · rw [if_pos h]
    constructor
    · exact Or.inr
    · rintro (rfl | hm)
      · exact h
      · exact hm
  · rw [if_neg h]
    exact List.mem_cons

theorem addUpload_backups (fs : FS) (n : String) :
    (addUpload fs n).backups = fs.backups := rfl

theorem mem_addBackup {fs : FS} {n m : String} :
    m ∈ (addBackup fs n).backups ↔ m = n ∨ m ∈ fs.backups := by
  rw [addBackup]
  by_cases h : n ∈ fs.backups
  · rw [if_pos h]
    constructor
    · exact Or.inr
    · rintro (rfl | hm)
      · exact h
      · exact hm
  · rw [if_neg h]
    exact List.mem_cons

theorem addBackup_uploads (fs : FS) (n : String) :
    (addBackup fs n).uploads = fs.uploads := rfl

theorem mem_removeUpload {fs : FS} {n m : String} :
    m ∈ (removeUpload fs n).uploads ↔ m ∈ fs.uploads ∧ m ≠ n := by
  rw [removeUpload]
  simp [List.mem_filter]

theorem removeUpload_backups (fs : FS) (n : String) :
    (removeUpload fs n).backups = fs.backups := rfl

theorem mem_removeBackup {fs : FS} {n m : String} :
    m ∈ (removeBackup fs n).backups ↔ m ∈ fs.backups ∧ m ≠ n := by
  rw [removeBackup]
  simp [List.mem_filter]

theorem removeBackup_uploads (fs : FS) (n : String) :
    (removeBackup fs n).uploads = fs.uploads := rfl

theorem resultsName_ne_csv (fileId : String) : resultsName fileId ≠ csvName := by
  intro h
  have h1 : (resultsName fileId).data = csvName.data := congrArg String.data h
  have h2 : (resultsName fileId).data =
      'r' :: (("esults_" : String).data ++ fileId.data ++ (".json" : String).data) := by
    show ("results_" ++ fileId ++ ".json").data = _
    rw [String.data_append, String.data_append]
    rw [show ("results_" : String).data = 'r' :: ("esults_" : String).data from rfl]
    simp [List.cons_append, List.append_assoc]
  rw [h2] at h1
  have h3 := congrArg (fun l => l.headD ' ') h1
  simp only [List.headD_cons] at h3
  rw [show csvName.data.headD ' ' = 'm' from rfl] at h3
  exact absurd h3 (by decide)

theorem resultsBackupName_ne_csv (fileId : String) :
    resultsBackupName fileId ≠ csvName := by
  intro h
  have h1 : (resultsBackupName fileId).data = csvName.data := congrArg String.data h
  have h2 : (resultsBackupName fileId).data =
      'r' :: (("esults_" : String).data ++ fileId.data ++ ("_backup.json" : String).data) := by
    show ("results_" ++ fileId ++ "_backup.json").data = _
    rw [String.data_append, String.data_append]
    rw [show ("results_" : String).data = 'r' :: ("esults_" : String).data from rfl]
    simp [List.cons_append, List.append_assoc]
  rw [h2] at h1
  have h3 := congrArg (fun l => l.headD ' ') h1
  simp only [List.headD_cons] at h3
  rw [show csvName.data.headD ' ' = 'm' from rfl] at h3
  exact absurd h3 (by decide)

/-! ## Lemmas: single-record verification branches -/

theorem checkSource_none {fs : FS} {r : Record} (h : r.uploadedFilePath = none) :
    checkSource fs r = (fs, []) := by
  simp only [checkSource, h]

theorem checkSource_present {fs : FS} {r : Record} {p : String}
    (h : r.uploadedFilePath = some p) (hp : p ∈ fs.uploads) :
    checkSource fs r = (fs, []) := by
  simp only [checkSource, h, if_pos hp]

theorem checkSource_restore {fs : FS} {r : Record} {p : String}
    (h : r.uploadedFilePath = some p) (hp : p ∉ fs.uploads) (hb : p ∈ fs.backups) :
    checkSource fs r = (addUpload fs p, [Event.restoredSource p]) := by
  simp only [checkSource, h, if_neg hp, if_pos hb]

theorem checkSource_lost {fs : FS} {r : Record} {p : String}
    (h : r.uploadedFilePath = some p) (hp : p ∉ fs.uploads) (hb : p ∉ fs.backups) :
    checkSource fs r = (fs, []) := by
  simp only [checkSource, h, if_neg hp, if_neg hb]

theorem checkResults_none {fs : FS} {r : Record} (h : r.resultsFile = none) :
    checkResults fs r = (fs, []) := by
  simp only [checkResults, h]

theorem checkResults_ok {fs : FS} {r : Record} {res : String}
    (h : r.resultsFile = some res) (h1 : res ∈ fs.uploads)
    (h2 : bakName res ∈ fs.uploads) :
    checkResults fs r = (fs, []) := by
  simp only [checkResults, h, if_pos h1]
  rw [if_neg]
  rintro ⟨_, hb⟩
  exact hb h2

theorem checkResults_synth {fs : FS} {r : Record} {res : String}
    (h : r.resultsFile = some res) (h1 : res ∈ fs.uploads)
    (h2 : bakName res ∉ fs.uploads) :
    checkResults fs r = (addUpload fs (bakName res), [Event.madeBackup (bakName res)]) := by
  simp only [checkResults, h, if_pos h1]
  rw [if_pos ⟨h1, h2⟩]
  rfl

theorem checkResults_restore {fs : FS} {r : Record} {res : String}
    (h : r.resultsFile = some res) (h1 : res ∉ fs.uploads)
    (h2 : bakName res ∈ fs.uploads) :
    checkResults fs r = (addUpload fs res, [Event.restoredResults res]) := by
  simp only [checkResults, h, if_neg h1, if_pos h2]
  rw [if_neg]
  rintro ⟨_, hb⟩
  exact hb (mem_addUpload.mpr (Or.inr h2))

theorem checkResults_regen {fs : FS} {r : Record} {res p : String}
    (h : r.resultsFile = some res) (h1 : res ∉ fs.uploads)
    (h2 : bakName res ∉ fs.uploads) (hsrc : r.uploadedFilePath = some p)
    (hp : p ∈ fs.uploads) :
    checkResults fs r =
      (addUpload (addUpload (addUpload fs res) (bakName res)) csvName,
        [Event.regenerated res]) := by
  simp only [checkResults, h, if_neg h1, if_neg h2, hsrc, if_pos hp]
  rw [if_neg]
  rintro ⟨_, hb⟩
  exact hb (mem_addUpload.mpr (Or.inr (mem_addUpload.mpr (Or.inl rfl))))

theorem checkResults_lost_nosrc {fs : FS} {r : Record} {res : String}
    (h : r.resultsFile = some res) (h1 : res ∉ fs.uploads)
    (h2 : bakName res ∉ fs.uploads) (hsrc : r.uploadedFilePath = none) :
    checkResults fs r = (fs, []) := by
  simp only [checkResults, h, if_neg h1, if_neg h2, hsrc]
  rw [if_neg]
  rintro ⟨hr2, _⟩
  exact h1 hr2

theorem checkResults_lost {fs : FS} {r : Record} {res p : String}
    (h : r.resultsFile = some res) (h1 : res ∉ fs.uploads)
    (h2 : bakName res ∉ fs.uploads) (hsrc : r.uploadedFilePath = some p)
    (hp : p ∉ fs.uploads) :
    checkResults fs r = (fs, []) := by
  simp only [checkResults, h, if_neg h1, if_neg h2, hsrc, if_neg hp]
  rw [if_neg]
  rintro ⟨hr2, _⟩
  exact h1 hr2

theorem checkSource_cases (fs : FS) (r : Record) :
    checkSource fs r = (fs, []) ∨
    ∃ p, r.uploadedFilePath = some p ∧ p ∉ fs.uploads ∧ p ∈ fs.backups ∧
      checkSource fs r = (addUpload fs p, [Event.restoredSource p]) := by
  rcases hsrc : r.uploadedFilePath with _ | p
  · exact Or.inl (checkSource_none hsrc)
  · by_cases h1 : p ∈ fs.uploads
    · exact Or.inl (checkSource_present hsrc h1)
    · by_cases h2 : p ∈ fs.backups
      · exact Or.inr ⟨p, rfl, h1, h2, checkSource_restore hsrc h1 h2⟩
      · exact Or.inl (checkSource_lost hsrc h1 h2)

theorem checkResults_cases (fs : FS) (r : Record) :
    checkResults fs r = (fs, []) ∨
    ∃ res, r.resultsFile = some res ∧
      (checkResults fs r =
          (addUpload fs (bakName res), [Event.madeBackup (bakName res)]) ∨
        checkResults fs r = (addUpload fs res, [Event.restoredResults res]) ∨
        checkResults fs r =
          (addUpload (addUpload (addUpload fs res) (bakName res)) csvName,
            [Event.regenerated res])) := by
  rcases hres : r.resultsFile with _ | res
  · exact Or.inl (checkResults_none hres)
  · by_cases h1 : res ∈ fs.uploads
    · by_cases h2 : bakName res ∈ fs.uploads
      · exact Or.inl (checkResults_ok hres h1 h2)
      · exact Or.inr ⟨res, rfl, Or.inl (checkResults_synth hres h1 h2)⟩
    · by_cases h2 : bakName res ∈ fs.uploads
      · exact Or.inr ⟨res, rfl, Or.inr (Or.inl (checkResults_restore hres h1 h2))⟩
      · rcases hsrc : r.uploadedFilePath with _ | p
        · exact Or.inl (checkResults_lost_nosrc hres h1 h2 hsrc)
        · by_cases hp : p ∈ fs.uploads
          · exact Or.inr ⟨res, rfl,
              Or.inr (Or.inr (checkResults_regen hres h1 h2 hsrc hp))⟩
          · exact Or.inl (checkResults_lost hres h1 h2 hsrc hp)

theorem checkSource_backups (fs : FS) (r : Record) :
    (checkSource fs r).1.backups = fs.backups := by
  rcases checkSource_cases fs r with h | ⟨p, _, _, _, h⟩ <;> rw [h]
  rfl

theorem checkSource_sub (fs : FS) (r : Record) :
    ∀ m ∈ fs.uploads, m ∈ (checkSource fs r).1.uploads := by
  intro m hm
  rcases checkSource_cases fs r with h | ⟨p, _, _, _, h⟩ <;> rw [h]
  · exact hm
  · exact mem_addUpload.mpr (Or.inr hm)

theorem checkSource_new (fs : FS) (r : Record) :
    ∀ m, m ∈ (checkSource fs r).1.uploads → m ∉ fs.uploads →
      r.uploadedFilePath = some m := by
  intro m hm hnm
  rcases checkSource_cases fs r with h | ⟨p, hp, _, _, h⟩
  · rw [h] at hm
    exact absurd hm hnm
  · rw [h] at hm
    rcases mem_addUpload.mp hm with rfl | hm2
    · exact hp
    · exact absurd hm2 hnm

theorem checkSource_events (fs : FS) (r : Record) :
    ∀ e ∈ (checkSource fs r).2, ∃ p, r.uploadedFilePath = some p ∧
      e = Event.restoredSource p := by
  intro e he
  rcases checkSource_cases fs r with h | ⟨p, hp, _, _, h⟩
  · rw [h] at he
    cases he
  · rw [h] at he
    rcases List.mem_singleton.mp he with rfl
    exact ⟨p, hp, rfl⟩

theorem checkResults_backups (fs : FS) (r : Record) :
    (checkResults fs r).1.backups = fs.backups := by
  rcases checkResults_cases fs r with h | ⟨res, _, h | h | h⟩ <;> rw [h] <;> rfl

theorem checkResults_sub (fs : FS) (r : Record) :
    ∀ m ∈ fs.uploads, m ∈ (checkResults fs r).1.uploads := by
  intro m hm
  rcases checkResults_cases fs r with h | ⟨res, _, h | h | h⟩ <;> rw [h]
  · exact hm
  · exact mem_addUpload.mpr (Or.inr hm)
  · exact mem_addUpload.mpr (Or.inr hm)
  · exact mem_addUpload.mpr (Or.inr (mem_addUpload.mpr (Or.inr
      (mem_addUpload.mpr (Or.inr hm)))))

theorem checkResults_new (fs : FS) (r : Record) :
    ∀ m, m ∈ (checkResults fs r).1.uploads → m ∉ fs.uploads →
      ∃ res, r.resultsFile = some res ∧
        (m = res ∨ m = bakName res ∨ m = csvName) := by
  intro m hm hnm
  rcases checkResults_cases fs r with h | ⟨res, hres, h | h | h⟩
  · rw [h] at hm
    exact absurd hm hnm
  · rw [h] at hm
    rcases mem_addUpload.mp hm with rfl | hm2
    · exact ⟨res, hres, Or.inr (Or.inl rfl)⟩
    · exact absurd hm2 hnm
  · rw [h] at hm
    rcases mem_addUpload.mp hm with rfl | hm2
    · exact ⟨m, hres, Or.inl rfl⟩
    · exact absurd hm2 hnm
  · rw [h] at hm
    rcases mem_addUpload.mp hm with rfl | hm2
    · exact ⟨res, hres, Or.inr (Or.inr rfl)⟩
    · rcases mem_addUpload.mp hm2 with rfl | hm3
      · exact ⟨res, hres, Or.inr (Or.inl rfl)⟩
      · rcases mem_addUpload.mp hm3 with rfl | hm4
        · exact ⟨m, hres, Or.inl rfl⟩
        · exact absurd hm4 hnm

theorem checkResults_events (fs : FS) (r : Record) :
    ∀ e ∈ (checkResults fs r).2, ∃ res, r.resultsFile = some res ∧
      (e = Event.madeBackup (bakName res) ∨ e = Event.restoredResults res ∨
        e = Event.regenerated res) := by
  intro e he
  rcases checkResults_cases fs r with h | ⟨res, hres, h | h | h⟩
  · rw [h] at he
    cases he
  · rw [h] at he
    rcases List.mem_singleton.mp he with rfl
    exact ⟨res, hres, Or.inl rfl⟩
  · rw [h] at he
    rcases List.mem_singleton.mp he with rfl
    exact ⟨res, hres, Or.inr (Or.inl rfl)⟩
  · rw [h] at he
    rcases List.mem_singleton.mp he with rfl
    exact ⟨res, hres, Or.inr (Or.inr rfl)⟩

theorem checkRecord_fst (fs : FS) (r : Record) :
    (checkRecord fs r).1 = (checkResults (checkSource fs r).1 r).1 := rfl

theorem checkRecord_snd (fs : FS) (r : Record) :
    (checkRecord fs r).2 =
      (checkSource fs r).2 ++ (checkResults (checkSource fs r).1 r).2 := rfl

theorem checkRecord_backups (fs : FS) (r : Record) :
    (checkRecord fs r).1.backups = fs.backups := by
  rw [checkRecord_fst, checkResults_backups, checkSource_backups]

theorem checkRecord_sub (fs : FS) (r : Record) :
    ∀ m ∈ fs.uploads, m ∈ (checkRecord fs r).1.uploads := by
  intro m hm
  rw [checkRecord_fst]
  exact checkResults_sub _ _ _ (checkSource_sub _ _ _ hm)

theorem checkRecord_new (fs : FS) (r : Record) :
    ∀ m, m ∈ (checkRecord fs r).1.uploads → m ∉ fs.uploads →
      r.uploadedFilePath = some m ∨
      ∃ res, r.resultsFile = some res ∧
        (m = res ∨ m = bakName res ∨ m = csvName) := by
  intro m hm hnm
  rw [checkRecord_fst] at hm
  by_cases hmid : m ∈ (checkSource fs r).1.uploads
  · exact Or.inl (checkSource_new fs r m hmid hnm)
  · exact Or.inr (checkResults_new _ r m hm hmid)

theorem checkRecord_events (fs : FS) (r : Record) :
    ∀ e ∈ (checkRecord fs r).2,
      (∃ p, r.uploadedFilePath = some p ∧ e = Event.restoredSource p) ∨
      (∃ res, r.resultsFile = some res ∧
        (e = Event.madeBackup (bakName res) ∨ e = Event.restoredResults res ∨
          e = Event.regenerated res)) := by
  intro e he
  rw [checkRecord_snd] at he
  rcases List.mem_append.mp he with he1 | he2
  · exact Or.inl (checkSource_events fs r e he1)
  · exact Or.inr (checkResults_events _ r e he2)

theorem cfi_cons_fst (r : Record) (rest : List Record) (fs : FS) :
    (check_file_integrity (r :: rest) fs).1 =
      (check_file_integrity rest (checkRecord fs r).1).1 := rfl

theorem cfi_cons_snd (r : Record) (rest : List Record) (fs : FS) :
    (check_file_integrity (r :: rest) fs).2 =
      (checkRecord fs r).2 ++ (check_file_integrity rest (checkRecord fs r).1).2 := rfl

theorem cfi_backups : ∀ (reg : List Record) (fs : FS),
    (check_file_integrity reg fs).1.backups = fs.backups := by
  intro reg
  induction reg with
  | nil => intro fs; rfl
  | cons r rest ih =>
    intro fs
    rw [cfi_cons_fst, ih, checkRecord_backups]

theorem cfi_sub : ∀ (reg : List Record) (fs : FS),
    ∀ m ∈ fs.uploads, m ∈ (check_file_integrity reg fs).1.uploads := by
  intro reg
  induction reg with
  | nil => intro fs m hm; exact hm
  | cons r rest ih =>
    intro fs m hm
    rw [cfi_cons_fst]
    exact ih _ m (checkRecord_sub fs r m hm)

theorem cfi_new : ∀ (reg : List Record) (fs : FS),
    ∀ m, m ∈ (check_file_integrity reg fs).1.uploads → m ∉ fs.uploads →
      ∃ r ∈ reg, (r.uploadedFilePath = some m ∨
        ∃ res, r.resultsFile = some res ∧
          (m = res ∨ m = bakName res ∨ m = csvName)) := by
  intro reg
  induction reg with
  | nil =>
    intro fs m hm hnm
    exact absurd hm hnm
  | cons r rest ih =>
    intro fs m hm hnm
    rw [cfi_cons_fst] at hm
    by_cases hmid : m ∈ (checkRecord fs r).1.uploads
    · exact ⟨r, List.mem_cons_self _ _, checkRecord_new fs r m hmid hnm⟩
    · rcases ih _ m hm hmid with ⟨r2, hr2, hsh⟩
      exact ⟨r2, List.mem_cons_of_mem _ hr2, hsh⟩

theorem cfi_events : ∀ (reg : List Record) (fs : FS),
    ∀ e ∈ (check_file_integrity reg fs).2,
      ∃ r ∈ reg,
        ((∃ p, r.uploadedFilePath = some p ∧ e = Event.restoredSource p) ∨
          (∃ res, r.resultsFile = some res ∧
            (e = Event.madeBackup (bakName res) ∨ e = Event.restoredResults res ∨
              e = Event.regenerated res))) := by
  intro reg
  induction reg with
  | nil =>
    intro fs e he
    cases he
  | cons r rest ih =>
    intro fs e he
    rw [cfi_cons_snd] at he
    rcases List.mem_append.mp he with he1 | he2
    · exact ⟨r, List.mem_cons_self _ _, checkRecord_events fs r e he1⟩
    · rcases ih _ e he2 with ⟨r2, hr2, hsh⟩
      exact ⟨r2, List.mem_cons_of_mem _ hr2, hsh⟩

theorem extractId_csv : extractId csvName = none := by decide

theorem checkRecord_nonadd {fs : FS} {r : Record} {m i : String}
    (hok : refsOk r) (hid : r.id ≠ i) (hm : extractId m = some i)
    (hnm : m ∉ fs.uploads) : m ∉ (checkRecord fs r).1.uploads := by
  intro hmem
  have hcontra : extractId m = some r.id → False := by
    intro hx
    rw [hm] at hx
    exact hid (Option.some_injective _ hx).symm
  rcases checkRecord_new fs r m hmem hnm with hsrc | ⟨res, hres, hsh⟩
  · exact hcontra (hok.1 m hsrc)
  · rcases hsh with h1 | h1 | h1
    · apply hcontra
      rw [h1]
      exact (hok.2 res hres).1
    · apply hcontra
      rw [h1]
      exact (hok.2 res hres).2
    · rw [h1, extractId_csv] at hm
      cases hm

theorem cfi_nonadd : ∀ (reg : List Record) (fs : FS) {m i : String},
    (∀ r ∈ reg, refsOk r) → (∀ r ∈ reg, r.id ≠ i) → extractId m = some i →
      m ∉ fs.uploads → m ∉ (check_file_integrity reg fs).1.uploads := by
  intro reg
  induction reg with
  | nil =>
    intro fs m i _ _ _ hnm
    exact hnm
  | cons r rest ih =>
    intro fs m i hok hid hm hnm
    rw [cfi_cons_fst]
    exact ih _ (fun r2 h2 => hok r2 (List.mem_cons_of_mem _ h2))
      (fun r2 h2 => hid r2 (List.mem_cons_of_mem _ h2)) hm
      (checkRecord_nonadd (hok r (List.mem_cons_self _ _))
        (hid r (List.mem_cons_self _ _)) hm hnm)

theorem sourceFixed_mono {fs fs' : FS} {r : Record} (h : sourceFixed fs r)
    (hsub : ∀ m ∈ fs.uploads, m ∈ fs'.uploads)
    (hbk : fs'.backups = fs.backups) : sourceFixed fs' r := by
  intro p hp
  rcases h p hp with h1 | h1
  · exact Or.inl (hsub p h1)
  · rw [hbk]
    exact Or.inr h1

theorem resultsFixed_mono {fs fs' : FS} {r : Record} (h : resultsFixed fs r)
    (hsub : ∀ m ∈ fs.uploads, m ∈ fs'.uploads)
    (hnew : ∀ m, m ∈ fs'.uploads → m ∉ fs.uploads →
      (∀ res, r.resultsFile = some res → m ≠ res ∧ m ≠ bakName res) ∧
      (∀ p, r.uploadedFilePath = some p → m ≠ p)) : resultsFixed fs' r := by
  intro res hres
  rcases h res hres with ⟨hc1, hc2⟩
  constructor
  · intro hres'
    by_cases hold : res ∈ fs.uploads
    · exact hsub _ (hc1 hold)
    · exact absurd rfl ((hnew res hres' hold).1 res hres).1
  · intro hres'
    have hresold : res ∉ fs.uploads := fun hc => hres' (hsub _ hc)
    rcases hc2 hresold with ⟨hb, hp⟩
    refine ⟨?_, ?_⟩
    · intro hbc
      by_cases hold : bakName res ∈ fs.uploads
      · exact hb hold
      · exact ((hnew _ hbc hold).1 res hres).2 rfl
    · intro p hpc hpm
      by_cases hold : p ∈ fs.uploads
      · exact hp p hpc hold
      · exact (hnew p hpm hold).2 p hpc rfl

theorem checkSource_fixed (fs : FS) (r : Record) :
    sourceFixed (checkSource fs r).1 r := by
  intro p hp
  by_cases h1 : p ∈ fs.uploads
  · exact Or.inl (checkSource_sub fs r p h1)
  · by_cases h2 : p ∈ fs.backups
    · rw [checkSource_restore hp h1 h2]
      exact Or.inl (mem_addUpload.mpr (Or.inl rfl))
    · rw [checkSource_backups]
      exact Or.inr h2

theorem checkResults_fixed (fs : FS) (r : Record) :
    resultsFixed (checkResults fs r).1 r := by
  intro res hres
  by_cases h1 : res ∈ fs.uploads
  · by_cases h2 : bakName res ∈ fs.uploads
    · rw [checkResults_ok hres h1 h2]
      exact ⟨fun _ => h2, fun hn => absurd h1 hn⟩
    · rw [checkResults_synth hres h1 h2]
      exact ⟨fun _ => mem_addUpload.mpr (Or.inl rfl),
        fun hn => absurd (mem_addUpload.mpr (Or.inr h1)) hn⟩
  · by_cases h2 : bakName res ∈ fs.uploads
    · rw [checkResults_restore hres h1 h2]
      exact ⟨fun _ => mem_addUpload.mpr (Or.inr h2),
        fun hn => absurd (mem_addUpload.mpr (Or.inl rfl)) hn⟩
    · rcases hsrc : r.uploadedFilePath with _ | p
      · rw [checkResults_lost_nosrc hres h1 h2 hsrc]
        refine ⟨fun hr' => absurd hr' h1, fun _ => ⟨h2, ?_⟩⟩
        intro p' hp'
        cases hp'
      · by_cases hp : p ∈ fs.uploads
        · rw [checkResults_regen hres h1 h2 hsrc hp]
          refine ⟨fun _ => ?_, fun hn => absurd ?_ hn⟩
          · exact mem_addUpload.mpr (Or.inr (mem_addUpload.mpr (Or.inl rfl)))
          · exact mem_addUpload.mpr (Or.inr (mem_addUpload.mpr (Or.inr
              (mem_addUpload.mpr (Or.inl rfl)))))
        · rw [checkResults_lost hres h1 h2 hsrc hp]
          refine ⟨fun hr' => absurd hr' h1, fun _ => ⟨h2, ?_⟩⟩
          intro p' hp'
          rw [Option.some_injective _ hp'.symm]
          exact hp

theorem checkRecord_fixed (fs : FS) (r : Record) :
    sourceFixed (checkRecord fs r).1 r ∧ resultsFixed (checkRecord fs r).1 r := by
  constructor
  · rw [checkRecord_fst]
    exact sourceFixed_mono (checkSource_fixed fs r)
      (checkResults_sub _ r) (checkResults_backups _ r)
  · rw [checkRecord_fst]
    exact checkResults_fixed _ r

theorem cfi_new_extract : ∀ (reg : List Record) (fs : FS),
    (∀ r ∈ reg, refsOk r) →
    ∀ m, m ∈ (check_file_integrity reg fs).1.uploads → m ∉ fs.uploads →
      m = csvName ∨ ∃ r ∈ reg, extractId m = some r.id := by
  intro reg fs hok m hm hnm
  rcases cfi_new reg fs m hm hnm with ⟨r, hr, hsrc | ⟨res, hres, hsh⟩⟩
  · exact Or.inr ⟨r, hr, (hok r hr).1 m hsrc⟩
  · rcases hsh with rfl | rfl | rfl
    · exact Or.inr ⟨r, hr, ((hok r hr).2 m hres).1⟩
    · exact Or.inr ⟨r, hr, ((hok r hr).2 res hres).2⟩
    · exact Or.inl rfl

theorem cfi_fixed : ∀ (reg : List Record) (fs : FS),
    (reg.map Record.id).Nodup → (∀ r ∈ reg, refsOk r) →
    ∀ r ∈ reg, sourceFixed (check_file_integrity reg fs).1 r ∧
      resultsFixed (check_file_integrity reg fs).1 r := by
  intro reg
  induction reg with
  | nil =>
    intro fs _ _ r hr
    cases hr
  | cons r0 rest ih =>
    intro fs hnd hok r hr
    have hnd' : (rest.map Record.id).Nodup := (List.nodup_cons.mp hnd).2
    have hok' : ∀ r2 ∈ rest, refsOk r2 :=
      fun r2 h2 => hok r2 (List.mem_cons_of_mem _ h2)
    rcases List.mem_cons.mp hr with rfl | hrr
    · rw [cfi_cons_fst]
      have hfix := checkRecord_fixed fs r
      have hid0 : ∀ r2 ∈ rest, r2.id ≠ r.id := by
        intro r2 h2 he
        exact (List.nodup_cons.mp hnd).1 (he ▸ List.mem_map_of_mem Record.id h2)
      have hnew : ∀ m, m ∈ (check_file_integrity rest (checkRecord fs r).1).1.uploads →
          m ∉ (checkRecord fs r).1.uploads →
          (∀ res, r.resultsFile = some res → m ≠ res ∧ m ≠ bakName res) ∧
          (∀ p, r.uploadedFilePath = some p → m ≠ p) := by
        intro m hm hnm
        rcases cfi_new_extract rest _ hok' m hm hnm with rfl | ⟨r2, h2, hex⟩
        · constructor
          · intro res hres
            constructor
            · intro he
              have := ((hok r (List.mem_cons_self _ _)).2 res hres).1
              rw [← he, extractId_csv] at this
              cases this
            · intro he
              have := ((hok r (List.mem_cons_self _ _)).2 res hres).2
              rw [← he, extractId_csv] at this
              cases this
          · intro p hp he
            have := (hok r (List.mem_cons_self _ _)).1 p hp
            rw [← he, extractId_csv] at this
            cases this
        · constructor
          · intro res hres
            constructor
            · intro he
              have h3 := ((hok r (List.mem_cons_self _ _)).2 res hres).1
              rw [← he] at h3
              rw [h3] at hex
              exact hid0 r2 h2 (Option.some_injective _ hex).symm
            · intro he
              have h3 := ((hok r (List.mem_cons_self _ _)).2 res hres).2
              rw [← he] at h3
              rw [h3] at hex
              exact hid0 r2 h2 (Option.some_injective _ hex).symm
          · intro p hp he
            have h3 := (hok r (List.mem_cons_self _ _)).1 p hp
            rw [← he] at h3
            rw [h3] at hex
            exact hid0 r2 h2 (Option.some_injective _ hex).symm
      refine ⟨sourceFixed_mono hfix.1 (cfi_sub rest _) (cfi_backups rest _), ?_⟩
      exact resultsFixed_mono hfix.2 (cfi_sub rest _) hnew
    · rw [cfi_cons_fst]
      exact ih _ hnd' hok' r hrr

/-! ## Lemmas: a settled store is a fixed point of the verification pass -/

theorem checkSource_noop {fs : FS} {r : Record} (h : sourceFixed fs r) :
    checkSource fs r = (fs, []) := by
  rcases hsrc : r.uploadedFilePath with _ | p
  · exact checkSource_none hsrc
  · by_cases h1 : p ∈ fs.uploads
    · exact checkSource_present hsrc h1
    · rcases h p hsrc with h2 | h2
      · exact absurd h2 h1
      · exact checkSource_lost hsrc h1 h2

theorem checkResults_noop {fs : FS} {r : Record}
    (h : ∀ res, r.resultsFile = some res →
      res ∈ fs.uploads ∧ bakName res ∈ fs.uploads) :
    checkResults fs r = (fs, []) := by
  rcases hres : r.resultsFile with _ | res
  · exact checkResults_none hres
  · exact checkResults_ok hres (h res hres).1 (h res hres).2

theorem checkRecord_of_noops {fs : FS} {r : Record}
    (h1 : checkSource fs r = (fs, [])) (h2 : checkResults fs r = (fs, [])) :
    checkRecord fs r = (fs, []) := by
  simp only [checkRecord, h1, h2]
  rfl

theorem checkRecord_noop {fs : FS} {r : Record} (hs : sourceFixed fs r)
    (hr : ∀ res, r.resultsFile = some res →
      res ∈ fs.uploads ∧ bakName res ∈ fs.uploads) :
    checkRecord fs r = (fs, []) :=
  checkRecord_of_noops (checkSource_noop hs) (checkResults_noop hr)

theorem cfi_noop : ∀ (reg : List Record) (fs : FS), settled reg fs →
    check_file_integrity reg fs = (fs, []) := by
  intro reg
  induction reg with
  | nil => intro fs _; rfl
  | cons r rest ih =>
    intro fs hset
    have h0 := hset r (List.mem_cons_self _ _)
    have hk : checkRecord fs r = (fs, []) := checkRecord_noop h0.1 h0.2.1
    have hk1 : (checkRecord fs r).1 = fs := by rw [hk]
    have hk2 : (checkRecord fs r).2 = [] := by rw [hk]
    have hrest := ih fs (fun r2 h2 => hset r2 (List.mem_cons_of_mem _ h2))
    calc check_file_integrity (r :: rest) fs
        = ((check_file_integrity rest (checkRecord fs r).1).1,
            (checkRecord fs r).2 ++
              (check_file_integrity rest (checkRecord fs r).1).2) := rfl
      _ = (fs, []) := by rw [hk1, hk2, hrest]; rfl

theorem hasFilesB_iff {fs : FS} {r : Record} :
    hasFilesB fs r = true ↔
      (∃ p, r.uploadedFilePath = some p ∧ p ∈ fs.uploads) ∨
      (∃ res, r.resultsFile = some res ∧ res ∈ fs.uploads) := by
  rcases hp : r.uploadedFilePath with _ | p <;>
    rcases hres : r.resultsFile with _ | res <;>
      simp [hasFilesB, hp, hres]

theorem entries_noop {reg : List Record} {fs : FS}
    (h : ∀ r ∈ reg, hasFilesB fs r = true) :
    clean_orphaned_database_entries reg fs = (reg, []) := by
  have h1 : reg.filter (fun r => hasFilesB fs r) = reg :=
    List.filter_eq_self.mpr h
  have h2 : reg.filter (fun r => !(hasFilesB fs r)) = [] := by
    rw [List.filter_eq_nil]
    intro r hrm
    simp [h r hrm]
  simp only [clean_orphaned_database_entries, h1, h2, List.map_nil]

theorem entries_snd (reg : List Record) (fs : FS) :
    (clean_orphaned_database_entries reg fs).2 =
      (reg.filter (fun r => !(hasFilesB fs r))).map
        (fun r => Event.deletedRecord r.id) := rfl

theorem files_snd (reg : List Record) (fs : FS) :
    (clean_orphaned_files reg fs).2 =
      (fs.uploads.filter (fun f => isOrphanB (reg.map Record.id) f)).map
        Event.deletedFile := rfl

theorem files_noop {reg : List Record} {fs : FS} (h : noOrphans reg fs) :
    clean_orphaned_files reg fs = (fs, []) := by
  have h1 : fs.uploads.filter (fun f => !(isOrphanB (reg.map Record.id) f)) =
      fs.uploads := by
    apply List.filter_eq_self.mpr
    intro f hf
    simp [h f hf]
  have h2 : fs.uploads.filter (fun f => isOrphanB (reg.map Record.id) f) = [] := by
    rw [List.filter_eq_nil]
    intro f hf
    simp [h f hf]
  simp only [clean_orphaned_files, h1, h2, List.map_nil]

theorem sweep_uploads (reg : List Record) (fs : FS) :
    (clean_orphaned_files reg fs).1.uploads =
      fs.uploads.filter (fun f => !(isOrphanB (reg.map Record.id) f)) := rfl

theorem sweep_backups (reg : List Record) (fs : FS) :
    (clean_orphaned_files reg fs).1.backups = fs.backups := rfl

theorem mem_sweep {reg : List Record} {fs : FS} {f : String} :
    f ∈ (clean_orphaned_files reg fs).1.uploads ↔
      f ∈ fs.uploads ∧ isOrphanB (reg.map Record.id) f = false := by
  rw [sweep_uploads, List.mem_filter]
  constructor
  · rintro ⟨hm, hb⟩
    refine ⟨hm, ?_⟩
    cases hval : isOrphanB (reg.map Record.id) f
    · rfl
    · rw [hval] at hb
      exact Bool.noConfusion hb
  · rintro ⟨hm, hb⟩
    refine ⟨hm, ?_⟩
    rw [hb]
    rfl

theorem sweep_keep {reg : List Record} {fs : FS} {f i : String}
    (hf : f ∈ fs.uploads) (hx : extractId f = some i)
    (hi : i ∈ reg.map Record.id) :
    f ∈ (clean_orphaned_files reg fs).1.uploads := by
  apply mem_sweep.mpr
  refine ⟨hf, ?_⟩
  simp only [isOrphanB, hx]
  simp [hi]

theorem reconcile_fst_registry (reg : List Record) (fs : FS) :
    (reconcile ⟨reg, fs⟩).1.registry =
      reg.filter (fun r => hasFilesB (check_file_integrity reg fs).1 r) := rfl

theorem reconcile_fst_fs (reg : List Record) (fs : FS) :
    (reconcile ⟨reg, fs⟩).1.fs =
      (clean_orphaned_files
        (reg.filter (fun r => hasFilesB (check_file_integrity reg fs).1 r))
        (check_file_integrity reg fs).1).1 := rfl

theorem reconcile_snd (reg : List Record) (fs : FS) :
    (reconcile ⟨reg, fs⟩).2 =
      (check_file_integrity reg fs).2 ++
        (clean_orphaned_database_entries reg (check_file_integrity reg fs).1).2 ++
        (clean_orphaned_files
          (reg.filter (fun r => hasFilesB (check_file_integrity reg fs).1 r))
          (check_file_integrity reg fs).1).2 := rfl

theorem refsOk_of_b {r : Record} (h : refsOkB r = true) : refsOk r := by
  unfold refsOkB at h
  rw [Bool.and_eq_true] at h
  constructor
  · intro p hp
    have h1 := h.1
    simp only [hp] at h1
    exact eq_of_beq h1
  · intro res hres
    have h2 := h.2
    simp only [hres, Bool.and_eq_true] at h2
    exact ⟨eq_of_beq h2.1, eq_of_beq h2.2⟩

theorem goodRegistry_of_b {reg : List Record} (h : goodRegistryB reg = true) :
    goodRegistry reg := by
  unfold goodRegistryB at h
  rw [Bool.and_eq_true] at h
  refine ⟨of_decide_eq_true h.1, ?_⟩
  intro r hr
  exact refsOk_of_b (List.all_eq_true.mp h.2 r hr)

theorem reconcile_settles (reg : List Record) (fs : FS) (hg : goodRegistry reg) :
    goodRegistry (reconcile ⟨reg, fs⟩).1.registry ∧
      settled (reconcile ⟨reg, fs⟩).1.registry (reconcile ⟨reg, fs⟩).1.fs ∧
      noOrphans (reconcile ⟨reg, fs⟩).1.registry (reconcile ⟨reg, fs⟩).1.fs := by
  obtain ⟨hnd, hok⟩ := hg
  have hfix := cfi_fixed reg fs hnd hok
  rw [reconcile_fst_registry, reconcile_fst_fs]
  have hres2 : ∀ r ∈ reg, hasFilesB (check_file_integrity reg fs).1 r = true →
      ∀ res, r.resultsFile = some res →
        res ∈ (check_file_integrity reg fs).1.uploads ∧
          bakName res ∈ (check_file_integrity reg fs).1.uploads := by
    intro r hr hhas res hres
    by_cases hu : res ∈ (check_file_integrity reg fs).1.uploads
    · exact ⟨hu, ((hfix r hr).2 res hres).1 hu⟩
    · exfalso
      obtain ⟨hb, hp⟩ := ((hfix r hr).2 res hres).2 hu
      rcases hasFilesB_iff.mp hhas with ⟨p, hps, hpu⟩ | ⟨res2, hrs, hru⟩
      · exact hp p hps hpu
      · rw [hres] at hrs
        cases Option.some_injective _ hrs
        exact hu hru
  refine ⟨⟨?_, ?_⟩, ?_, ?_⟩
  · exact List.Nodup.sublist (List.Sublist.map Record.id (List.filter_sublist reg)) hnd
  · intro r hr
    exact hok r (List.mem_filter.mp hr).1
  · intro r hr
    obtain ⟨hrm, hhas⟩ := List.mem_filter.mp hr
    have hidmem : r.id ∈
        (reg.filter (fun r =>
          hasFilesB (check_file_integrity reg fs).1 r)).map Record.id :=
      List.mem_map_of_mem Record.id hr
    refine ⟨?_, ?_, ?_⟩
    · intro p hp
      rcases (hfix r hrm).1 p hp with h1 | h1
      · exact Or.inl (sweep_keep h1 ((hok r hrm).1 p hp) hidmem)
      · rw [sweep_backups]
        exact Or.inr h1
    · intro res hres
      obtain ⟨hru, hbu⟩ := hres2 r hrm hhas res hres
      exact ⟨sweep_keep hru ((hok r hrm).2 res hres).1 hidmem,
        sweep_keep hbu ((hok r hrm).2 res hres).2 hidmem⟩
    · apply hasFilesB_iff.mpr
      rcases hasFilesB_iff.mp hhas with ⟨p, hps, hpu⟩ | ⟨res, hrs, hru⟩
      · exact Or.inl ⟨p, hps, sweep_keep hpu ((hok r hrm).1 p hps) hidmem⟩
      · exact Or.inr ⟨res, hrs, sweep_keep hru ((hok r hrm).2 res hrs).1 hidmem⟩
  · intro f hf
    exact (mem_sweep.mp hf).2

theorem reconcile_noop {reg : List Record} {fs : FS} (h1 : settled reg fs)
    (h2 : noOrphans reg fs) : reconcile ⟨reg, fs⟩ = (⟨reg, fs⟩, []) := by
  have hcfi := cfi_noop reg fs h1
  have ha1 : (check_file_integrity reg fs).1 = fs := by rw [hcfi]
  have ha2 : (check_file_integrity reg fs).2 = [] := by rw [hcfi]
  have hent : clean_orphaned_database_entries reg fs = (reg, []) :=
    entries_noop (fun r hr => (h1 r hr).2.2)
  have hfil : clean_orphaned_files reg fs = (fs, []) := files_noop h2
  have hfilt : reg.filter (fun r => hasFilesB fs r) = reg :=
    List.filter_eq_self.mpr (fun r hr => (h1 r hr).2.2)
  have e1 : (reconcile ⟨reg, fs⟩).1.registry = reg := by
    rw [reconcile_fst_registry, ha1, hfilt]
  have e2 : (reconcile ⟨reg, fs⟩).1.fs = fs := by
    rw [reconcile_fst_fs, ha1, hfilt, hfil]
  have e3 : (reconcile ⟨reg, fs⟩).2 = [] := by
    rw [reconcile_snd, ha1, ha2, hfilt, hent, hfil]
    rfl
  have e12 : (reconcile ⟨reg, fs⟩).1 = (⟨reg, fs⟩ : SysState) := by
    show (⟨(reconcile ⟨reg, fs⟩).1.registry,
      (reconcile ⟨reg, fs⟩).1.fs⟩ : SysState) = _
    rw [e1, e2]
  show ((reconcile ⟨reg, fs⟩).1, (reconcile ⟨reg, fs⟩).2) = _
  rw [e12, e3]

/-! ## Lemmas: which records can emit results events -/

theorem checkRecord_res_event_absent {fs : FS} {r : Record} {res i : String}
    (hok : refsOk r) (hid : r.id ≠ i) (hx : extractId res = some i) :
    Event.restoredResults res ∉ (checkRecord fs r).2 ∧
      Event.regenerated res ∉ (checkRecord fs r).2 := by
  have hkey : ∀ res2, r.resultsFile = some res2 → res2 ≠ res := by
    intro res2 hres2 he
    have h3 := (hok.2 res2 hres2).1
    rw [he, hx] at h3
    exact hid (Option.some_injective _ h3).symm
  constructor
  · intro hmem
    rcases checkRecord_events fs r _ hmem with ⟨p, _, he⟩ | ⟨res2, hres2, he | he | he⟩
    · cases he
    · cases he
    · injection he with h2
      exact hkey res2 hres2 h2.symm
    · cases he
  · intro hmem
    rcases checkRecord_events fs r _ hmem with ⟨p, _, he⟩ | ⟨res2, hres2, he | he | he⟩
    · cases he
    · cases he
    · cases he
    · injection he with h2
      exact hkey res2 hres2 h2.symm

theorem cfi_res_event_absent : ∀ (reg : List Record) (fs : FS) {res i : String},
    (∀ r ∈ reg, refsOk r) → (∀ r ∈ reg, r.id ≠ i) → extractId res = some i →
    Event.restoredResults res ∉ (check_file_integrity reg fs).2 ∧
      Event.regenerated res ∉ (check_file_integrity reg fs).2 := by
  intro reg
  induction reg with
  | nil =>
    intro fs res i _ _ _
    exact ⟨List.not_mem_nil _, List.not_mem_nil _⟩
  | cons r rest ih =>
    intro fs res i hok hid hx
    have hhead := @checkRecord_res_event_absent fs r res i
      (hok r (List.mem_cons_self _ _)) (hid r (List.mem_cons_self _ _)) hx
    have htail := ih (checkRecord fs r).1
      (fun r2 h2 => hok r2 (List.mem_cons_of_mem _ h2))
      (fun r2 h2 => hid r2 (List.mem_cons_of_mem _ h2)) hx
    constructor
    · intro hmem
      rw [cfi_cons_snd] at hmem
      rcases List.mem_append.mp hmem with h | h
      · exact hhead.1 h
      · exact htail.1 h
    · intro hmem
      rw [cfi_cons_snd] at hmem
      rcases List.mem_append.mp hmem with h | h
      · exact hhead.2 h
      · exact htail.2 h

/-! ## Lemmas: the cascade for a record with a missing results file -/

theorem cfi_cascade : ∀ (reg : List Record) (fs : FS),
    (reg.map Record.id).Nodup → (∀ r2 ∈ reg, refsOk r2) →
    ∀ r ∈ reg, ∀ res, r.resultsFile = some res → res ∉ fs.uploads →
    (∀ p, r.uploadedFilePath = some p → p ≠ res ∧ p ≠ bakName res) →
    ((bakName res ∈ fs.uploads →
        Event.restoredResults res ∈ (check_file_integrity reg fs).2 ∧
          Event.regenerated res ∉ (check_file_integrity reg fs).2 ∧
          res ∈ (check_file_integrity reg fs).1.uploads) ∧
      (∀ p, bakName res ∉ fs.uploads → r.uploadedFilePath = some p →
        p ∈ fs.uploads ∨ p ∈ fs.backups →
        Event.regenerated res ∈ (check_file_integrity reg fs).2 ∧
          Event.restoredResults res ∉ (check_file_integrity reg fs).2 ∧
          res ∈ (check_file_integrity reg fs).1.uploads) ∧
      (bakName res ∉ fs.uploads →
        (∀ p, r.uploadedFilePath = some p → p ∉ fs.uploads ∧ p ∉ fs.backups) →
        res ∉ (check_file_integrity reg fs).1.uploads ∧
          hasFilesB (check_file_integrity reg fs).1 r = false)) := by
  intro reg
  induction reg with
  | nil => intro fs _ _ r hr; cases hr
  | cons r0 rest ih =>
    intro fs hnd hok r hr res hres hmiss hdist
    have hnd1 : r0.id ∉ rest.map Record.id := (List.nodup_cons.mp hnd).1
    have hnd2 : (rest.map Record.id).Nodup := (List.nodup_cons.mp hnd).2
    have hok' : ∀ r2 ∈ rest, refsOk r2 :=
      fun r2 h2 => hok r2 (List.mem_cons_of_mem _ h2)
    have hexres : extractId res = some r.id := ((hok r hr).2 res hres).1
    have hexbak : extractId (bakName res) = some r.id := ((hok r hr).2 res hres).2
    rcases List.mem_cons.mp hr with he | hrr
    · subst he
      have hid_rest : ∀ r2 ∈ rest, r2.id ≠ r.id := by
        intro r2 h2 he2
        apply hnd1
        rw [← he2]
        exact List.mem_map_of_mem Record.id h2
      refine ⟨?_, ?_, ?_⟩
      · intro hbak
        have hs1res : res ∉ (checkSource fs r).1.uploads := by
          intro hc
          exact (hdist res (checkSource_new fs r res hc hmiss)).1 rfl
        have hs1bak : bakName res ∈ (checkSource fs r).1.uploads :=
          checkSource_sub fs r _ hbak
        have hcr : checkResults (checkSource fs r).1 r =
            (addUpload (checkSource fs r).1 res, [Event.restoredResults res]) :=
          checkResults_restore hres hs1res hs1bak
        have hk2 : (checkRecord fs r).2 =
            (checkSource fs r).2 ++ [Event.restoredResults res] := by
          rw [checkRecord_snd, hcr]
        have hk1 : (checkRecord fs r).1 = addUpload (checkSource fs r).1 res := by
          rw [checkRecord_fst, hcr]
        have htail := cfi_res_event_absent rest (checkRecord fs r).1 hok' hid_rest hexres
        refine ⟨?_, ?_, ?_⟩
        · rw [cfi_cons_snd, hk2]
          exact List.mem_append.mpr (Or.inl (List.mem_append.mpr (Or.inr
            (List.mem_singleton.mpr rfl))))
        · intro hmem
          rw [cfi_cons_snd] at hmem
          rcases List.mem_append.mp hmem with h | h
          · rw [hk2] at h
            rcases List.mem_append.mp h with h1 | h1
            · rcases checkSource_events fs r _ h1 with ⟨q, _, he2⟩
              cases he2
            · cases List.mem_singleton.mp h1
          · exact htail.2 h
        · rw [cfi_cons_fst, hk1]
          exact cfi_sub rest _ res (mem_addUpload.mpr (Or.inl rfl))
      · intro p hnbak hsrc hpor
        have hfacts : p ∈ (checkSource fs r).1.uploads ∧
            res ∉ (checkSource fs r).1.uploads ∧
            bakName res ∉ (checkSource fs r).1.uploads := by
          by_cases hpu : p ∈ fs.uploads
          · rw [checkSource_present hsrc hpu]
            exact ⟨hpu, hmiss, hnbak⟩
          · rw [checkSource_restore hsrc hpu (hpor.resolve_left hpu)]
            refine ⟨mem_addUpload.mpr (Or.inl rfl), ?_, ?_⟩
            · intro hc
              rcases mem_addUpload.mp hc with he2 | hc2
              · exact (hdist p hsrc).1 he2.symm
              · exact hmiss hc2
            · intro hc
              rcases mem_addUpload.mp hc with he2 | hc2
              · exact (hdist p hsrc).2 he2.symm
              · exact hnbak hc2
        have hcr : checkResults (checkSource fs r).1 r =
            (addUpload (addUpload (addUpload (checkSource fs r).1 res)
                (bakName res)) csvName,
              [Event.regenerated res]) :=
          checkResults_regen hres hfacts.2.1 hfacts.2.2 hsrc hfacts.1
        have hk2 : (checkRecord fs r).2 =
            (checkSource fs r).2 ++ [Event.regenerated res] := by
          rw [checkRecord_snd, hcr]
        have hk1 : (checkRecord fs r).1 =
            addUpload (addUpload (addUpload (checkSource fs r).1 res)
              (bakName res)) csvName := by
          rw [checkRecord_fst, hcr]
        have htail := cfi_res_event_absent rest (checkRecord fs r).1 hok' hid_rest hexres
        refine ⟨?_, ?_, ?_⟩
        · rw [cfi_cons_snd, hk2]
          exact List.mem_append.mpr (Or.inl (List.mem_append.mpr (Or.inr
            (List.mem_singleton.mpr rfl))))
        · intro hmem
          rw [cfi_cons_snd] at hmem
          rcases List.mem_append.mp hmem with h | h
          · rw [hk2] at h
            rcases List.mem_append.mp h with h1 | h1
            · rcases checkSource_events fs r _ h1 with ⟨q, _, he2⟩
              cases he2
            · cases List.mem_singleton.mp h1
          · exact htail.1 h
        · rw [cfi_cons_fst, hk1]
          exact cfi_sub rest _ res (mem_addUpload.mpr (Or.inr (mem_addUpload.mpr
            (Or.inr (mem_addUpload.mpr (Or.inl rfl))))))
      · intro hnbak hlost
        have hcs : checkSource fs r = (fs, []) := by
          rcases hsv : r.uploadedFilePath with _ | p
          · exact checkSource_none hsv
          · exact checkSource_lost hsv (hlost p hsv).1 (hlost p hsv).2
        have hcr2 : checkResults fs r = (fs, []) := by
          rcases hsv : r.uploadedFilePath with _ | p
          · exact checkResults_lost_nosrc hres hmiss hnbak hsv
          · exact checkResults_lost hres hmiss hnbak hsv (hlost p hsv).1
        have hk : checkRecord fs r = (fs, []) := checkRecord_of_noops hcs hcr2
        have hk1 : (checkRecord fs r).1 = fs := by rw [hk]
        have hresn : res ∉ (check_file_integrity (r :: rest) fs).1.uploads := by
          rw [cfi_cons_fst, hk1]
          exact cfi_nonadd rest fs hok' hid_rest hexres hmiss
        refine ⟨hresn, ?_⟩
        cases hhb : hasFilesB (check_file_integrity (r :: rest) fs).1 r
        · rfl
        · exfalso
          rcases hasFilesB_iff.mp hhb with ⟨p, hps, hpu⟩ | ⟨res2, hrs, hru⟩
          · have hpn : p ∉ (check_file_integrity (r :: rest) fs).1.uploads := by
              rw [cfi_cons_fst, hk1]
              exact cfi_nonadd rest fs hok' hid_rest ((hok r hr).1 p hps) (hlost p hps).1
            exact hpn hpu
          · rw [hres] at hrs
            cases Option.some_injective _ hrs
            exact hresn hru
    · have hid0 : r0.id ≠ r.id := by
        intro he2
        apply hnd1
        rw [he2]
        exact List.mem_map_of_mem Record.id hrr
      have hok0 : refsOk r0 := hok r0 (List.mem_cons_self _ _)
      have hmiss' : res ∉ (checkRecord fs r0).1.uploads :=
        checkRecord_nonadd hok0 hid0 hexres hmiss
      have hind := ih (checkRecord fs r0).1 hnd2 hok' r hrr res hres hmiss' hdist
      refine ⟨?_, ?_, ?_⟩
      · intro hbak
        have hbak' : bakName res ∈ (checkRecord fs r0).1.uploads :=
          checkRecord_sub fs r0 _ hbak
        obtain ⟨hin, hnot, hup⟩ := hind.1 hbak'
        have hhead := @checkRecord_res_event_absent fs r0 res r.id hok0 hid0 hexres
        refine ⟨?_, ?_, ?_⟩
        · rw [cfi_cons_snd]
          exact List.mem_append.mpr (Or.inr hin)
        · intro hmem
          rw [cfi_cons_snd] at hmem
          rcases List.mem_append.mp hmem with h | h
          · exact hhead.2 h
          · exact hnot h
        · rw [cfi_cons_fst]
          exact hup
      · intro p hnbak hsrc hpor
        have hnbak' : bakName res ∉ (checkRecord fs r0).1.uploads :=
          checkRecord_nonadd hok0 hid0 hexbak hnbak
        have hpor' : p ∈ (checkRecord fs r0).1.uploads ∨
            p ∈ (checkRecord fs r0).1.backups := by
          rcases hpor with h | h
          · exact Or.inl (checkRecord_sub fs r0 _ h)
          · refine Or.inr ?_
            rw [checkRecord_backups]
            exact h
        obtain ⟨hin, hnot, hup⟩ := hind.2.1 p hnbak' hsrc hpor'
        have hhead := @checkRecord_res_event_absent fs r0 res r.id hok0 hid0 hexres
        refine ⟨?_, ?_, ?_⟩
        · rw [cfi_cons_snd]
          exact List.mem_append.mpr (Or.inr hin)
        · intro hmem
          rw [cfi_cons_snd] at hmem
          rcases List.mem_append.mp hmem with h | h
          · exact hhead.1 h
          · exact hnot h
        · rw [cfi_cons_fst]
          exact hup
      · intro hnbak hlost
        have hnbak' : bakName res ∉ (checkRecord fs r0).1.uploads :=
          checkRecord_nonadd hok0 hid0 hexbak hnbak
        have hlost' : ∀ p, r.uploadedFilePath = some p →
            p ∉ (checkRecord fs r0).1.uploads ∧
              p ∉ (checkRecord fs r0).1.backups := by
          intro p hp
          refine ⟨checkRecord_nonadd hok0 hid0 ((hok r hr).1 p hp) (hlost p hp).1, ?_⟩
          rw [checkRecord_backups]
          exact (hlost p hp).2
        obtain ⟨h1, h2⟩ := hind.2.2 hnbak' hlost'
        refine ⟨?_, ?_⟩
        · rw [cfi_cons_fst]
          exact h1
        · rw [cfi_cons_fst]
          exact h2

/-! ## Claim C5: artifacts-before-registry and rollback -/

/-- Counterexample to claim C5 as stated.  When the registry insert fails,
the export CSV written by that submission is not in the cleanup list and
survives the rollback: not every artifact written by the submission is
removed. -/
theorem upload_rollback_csv_counterexample :
    ((upload_file ⟨[], ⟨[], []⟩⟩ uuidA "f.fasta" (.parsed [['A'], ['T']]) false).1.registry
      = []) ∧
    (csvName ∈
      (upload_file ⟨[], ⟨[], []⟩⟩ uuidA "f.fasta" (.parsed [['A'], ['T']]) false).1.fs.uploads) ∧
    (csvName ∉ (⟨[], ⟨[], []⟩⟩ : SysState).fs.uploads) := by
  decide

/-- Claim C5 (amended).  On a successful submission the registry insert is
issued only on the store state `fsAfterArtifacts`, which already contains
the source artifact, its backup, the results artifact, both results backups
and the export CSV; on insert failure the registry is unchanged and every
written artifact except the export CSV is removed — the export CSV is not
in the cleanup list and remains. -/
theorem upload_create_ordering_rollback (s : SysState) (fileId fname : String)
    (seqs : List (List Char)) (createOk : Bool) (hne : seqs ≠ [])
    (hsrc : sourceName fileId fname ≠ csvName) :
    (createOk = true →
      (upload_file s fileId fname (.parsed seqs) createOk).1.fs =
        fsAfterArtifacts s.fs fileId fname ∧
      (upload_file s fileId fname (.parsed seqs) createOk).1.registry =
        madeRecord fileId fname (analyzeSeqs false seqs) :: s.registry ∧
      sourceName fileId fname ∈ (fsAfterArtifacts s.fs fileId fname).uploads ∧
      sourceName fileId fname ∈ (fsAfterArtifacts s.fs fileId fname).backups ∧
      resultsName fileId ∈ (fsAfterArtifacts s.fs fileId fname).uploads ∧
      resultsBackupName fileId ∈ (fsAfterArtifacts s.fs fileId fname).uploads ∧
      resultsBackupName fileId ∈ (fsAfterArtifacts s.fs fileId fname).backups ∧
      csvName ∈ (fsAfterArtifacts s.fs fileId fname).uploads) ∧
    (createOk = false →
      (upload_file s fileId fname (.parsed seqs) createOk).1.registry = s.registry ∧
      sourceName fileId fname ∉
        (upload_file s fileId fname (.parsed seqs) createOk).1.fs.uploads ∧
      sourceName fileId fname ∉
        (upload_file s fileId fname (.parsed seqs) createOk).1.fs.backups ∧
      resultsName fileId ∉
        (upload_file s fileId fname (.parsed seqs) createOk).1.fs.uploads ∧
      resultsBackupName fileId ∉
        (upload_file s fileId fname (.parsed seqs) createOk).1.fs.uploads ∧
      resultsBackupName fileId ∉
        (upload_file s fileId fname (.parsed seqs) createOk).1.fs.backups ∧
      csvName ∈ (upload_file s fileId fname (.parsed seqs) createOk).1.fs.uploads) := by
  have hok : analyze_mutations false (.parsed seqs) = .ok (analyzeSeqs false seqs) := by
    rw [analyze_mutations]
    rw [if_neg (by simpa [List.length_eq_zero] using hne)]
  have hmemArt :
      sourceName fileId fname ∈ (fsAfterArtifacts s.fs fileId fname).uploads ∧
      sourceName fileId fname ∈ (fsAfterArtifacts s.fs fileId fname).backups ∧
      resultsName fileId ∈ (fsAfterArtifacts s.fs fileId fname).uploads ∧
      resultsBackupName fileId ∈ (fsAfterArtifacts s.fs fileId fname).uploads ∧
      resultsBackupName fileId ∈ (fsAfterArtifacts s.fs fileId fname).backups ∧
      csvName ∈ (fsAfterArtifacts s.fs fileId fname).uploads := by
    rw [fsAfterArtifacts]
    refine ⟨?_, ?_, ?_, ?_, ?_, ?_⟩
    · rw [addBackup_uploads]
      exact mem_addUpload.mpr (Or.inr (mem_addUpload.mpr (Or.inr
        (mem_addUpload.mpr (Or.inr (mem_addUpload.mpr (Or.inl rfl)))))))
    · rw [mem_addBackup]
      exact Or.inr (mem_addBackup.mpr (Or.inl rfl))
    · rw [addBackup_uploads]
      exact mem_addUpload.mpr (Or.inr (mem_addUpload.mpr (Or.inl rfl)))
    · rw [addBackup_uploads]
      exact mem_addUpload.mpr (Or.inl rfl)
    · exact mem_addBackup.mpr (Or.inl rfl)
    · rw [addBackup_uploads]
      exact mem_addUpload.mpr (Or.inr (mem_addUpload.mpr (Or.inr
        (mem_addUpload.mpr (Or.inl rfl)))))
  constructor
  · intro hck
    subst hck
    refine ⟨?_, ?_, hmemArt.1, hmemArt.2.1, hmemArt.2.2.1, hmemArt.2.2.2.1,
      hmemArt.2.2.2.2.1, hmemArt.2.2.2.2.2⟩
    · show (upload_file s fileId fname (.parsed seqs) true).1.fs = _
      rw [upload_file, hok]
      rfl
    · show (upload_file s fileId fname (.parsed seqs) true).1.registry = _
      rw [upload_file, hok]
      rfl
  · intro hck
    subst hck
    have hfs : (upload_file s fileId fname (.parsed seqs) false).1.fs =
        rollbackCleanup (fsAfterArtifacts s.fs fileId fname) fileId fname := by
      rw [upload_file, hok]
      rfl
    have hreg : (upload_file s fileId fname (.parsed seqs) false).1.registry =
        s.registry := by
      rw [upload_file, hok]
      rfl
    rw [hfs, hreg, rollbackCleanup]
    refine ⟨rfl, ?_, ?_, ?_, ?_, ?_, ?_⟩
    · rw [removeBackup_uploads]
      intro hm
      rcases mem_removeUpload.mp hm with ⟨hm2, _⟩
      rcases mem_removeUpload.mp hm2 with ⟨hm3, _⟩
      rw [removeBackup_uploads] at hm3
      rcases mem_removeUpload.mp hm3 with ⟨_, hne2⟩
      exact hne2 rfl
    · rw [mem_removeBackup, removeUpload_backups, removeUpload_backups, mem_removeBackup,
        removeUpload_backups]
      rintro ⟨⟨_, hne2⟩, _⟩
      exact hne2 rfl
    · rw [removeBackup_uploads]
      intro hm
      rcases mem_removeUpload.mp hm with ⟨hm2, _⟩
      rcases mem_removeUpload.mp hm2 with ⟨_, hne2⟩
      exact hne2 rfl
    · rw [removeBackup_uploads]
      intro hm
      rcases mem_removeUpload.mp hm with ⟨_, hne2⟩
      exact hne2 rfl
    · rw [mem_removeBackup]
      rintro ⟨_, hne2⟩
      exact hne2 rfl
    · rw [removeBackup_uploads]
      refine mem_removeUpload.mpr ⟨mem_removeUpload.mpr ⟨?_, Ne.symm (resultsName_ne_csv _)⟩,
        Ne.symm (resultsBackupName_ne_csv _)⟩
      rw [removeBackup_uploads]
      exact mem_removeUpload.mpr ⟨hmemArt.2.2.2.2.2, Ne.symm hsrc⟩

/-- Witness for `upload_create_ordering_rollback`: instantiated on an empty
initial state with a failing registry insert. -/
theorem upload_create_ordering_rollback_witness :
    (upload_file ⟨[], ⟨[], []⟩⟩ uuidA "f.fasta" (.parsed [['A'], ['T']]) false).1.registry
        = (⟨[], ⟨[], []⟩⟩ : SysState).registry ∧
      sourceName uuidA "f.fasta" ∉
        (upload_file ⟨[], ⟨[], []⟩⟩ uuidA "f.fasta" (.parsed [['A'], ['T']]) false).1.fs.uploads ∧
      sourceName uuidA "f.fasta" ∉
        (upload_file ⟨[], ⟨[], []⟩⟩ uuidA "f.fasta" (.parsed [['A'], ['T']]) false).1.fs.backups ∧
      resultsName uuidA ∉
        (upload_file ⟨[], ⟨[], []⟩⟩ uuidA "f.fasta" (.parsed [['A'], ['T']]) false).1.fs.uploads ∧
      resultsBackupName uuidA ∉
        (upload_file ⟨[], ⟨[], []⟩⟩ uuidA "f.fasta" (.parsed [['A'], ['T']]) false).1.fs.uploads ∧
      resultsBackupName uuidA ∉
        (upload_file ⟨[], ⟨[], []⟩⟩ uuidA "f.fasta" (.parsed [['A'], ['T']]) false).1.fs.backups ∧
      csvName ∈
        (upload_file ⟨[], ⟨[], []⟩⟩ uuidA "f.fasta" (.parsed [['A'], ['T']]) false).1.fs.uploads :=
  (upload_create_ordering_rollback ⟨[], ⟨[], []⟩⟩ uuidA "f.fasta" [['A'], ['T']] false
    (by decide) (by decide)).2 rfl

/-! ## Claim C6: artifact naming -/

/-- Counterexample to claim C6 as stated.  For a successful submission with
a UUID-shaped id, the results artifact is named with the literal prefix
`results_`, so the record id is not a prefix of its name, and the export
artifact's name does not mention the id at all — the orphan sweep cannot
associate it with any record. -/
theorem artifact_prefix_counterexample :
    ((upload_file ⟨[], ⟨[], []⟩⟩ uuidA "f.fasta" (.parsed [['A'], ['T']]) true).2 =
      .ok (madeRecord uuidA "f.fasta" (analyzeSeqs false [['A'], ['T']]))) ∧
    ((madeRecord uuidA "f.fasta" (analyzeSeqs false [['A'], ['T']])).resultsFile =
      some (resultsName uuidA)) ∧
    uuidA.data.isPrefixOf (resultsName uuidA).data = false ∧
    ((madeRecord uuidA "f.fasta" (analyzeSeqs false [['A'], ['T']])).outputFile =
      some csvName) ∧
    uuidA.data.isPrefixOf csvName.data = false ∧
    extractId csvName = none ∧
    resultsName uuidA ∈
      (upload_file ⟨[], ⟨[], []⟩⟩ uuidA "f.fasta" (.parsed [['A'], ['T']]) true).1.fs.uploads ∧
    csvName ∈
      (upload_file ⟨[], ⟨[], []⟩⟩ uuidA "f.fasta" (.parsed [['A'], ['T']]) true).1.fs.uploads := by
  decide

/-- Claim C6 (amended).  Every record a successful submission creates
references a source artifact whose name has the record id as a prefix, a
results artifact named with the id embedded after the literal `results_`
prefix (with the corresponding backup names), and the shared export CSV,
whose fixed name embeds no id and which the orphan sweep cannot associate
with any record. -/
theorem artifact_naming_convention (s : SysState) (fileId fname : String)
    (input : ParsedInput) (createOk : Bool) (newRec : Record)
    (h : (upload_file s fileId fname input createOk).2 = .ok newRec) :
    newRec.id = fileId ∧
    newRec.uploadedFilePath = some (sourceName fileId fname) ∧
    (∃ t, sourceName fileId fname = fileId ++ t) ∧
    newRec.resultsFile = some (resultsName fileId) ∧
    resultsName fileId = "results_" ++ fileId ++ ".json" ∧
    resultsBackupName fileId = "results_" ++ fileId ++ "_backup.json" ∧
    newRec.outputFile = some csvName ∧
    extractId csvName = none := by
  have hrec : ∃ results, newRec = madeRecord fileId fname results := by
    rw [upload_file] at h
    rcases hinp : analyze_mutations false input with e | results
    · rw [hinp] at h
      cases h
    · rw [hinp] at h
      rcases hc : createOk with _ | _
      · rw [hc] at h
        simp at h
      · rw [hc] at h
        simp only [if_true] at h
        cases h
        exact ⟨results, rfl⟩
  obtain ⟨results, rfl⟩ := hrec
  refine ⟨rfl, rfl, ⟨"_" ++ fname, ?_⟩, rfl, rfl, rfl, rfl, by decide⟩
  rw [sourceName, String.append_assoc]

/-- Witness for `artifact_naming_convention`: a concrete successful
submission. -/
theorem artifact_naming_convention_witness :
    (madeRecord uuidB "g.fasta" (analyzeSeqs false [['C'], ['C']])).id = uuidB ∧
    (madeRecord uuidB "g.fasta" (analyzeSeqs false [['C'], ['C']])).uploadedFilePath =
      some (sourceName uuidB "g.fasta") ∧
    (∃ t, sourceName uuidB "g.fasta" = uuidB ++ t) ∧
    (madeRecord uuidB "g.fasta" (analyzeSeqs false [['C'], ['C']])).resultsFile =
      some (resultsName uuidB) ∧
    resultsName uuidB = "results_" ++ uuidB ++ ".json" ∧
    resultsBackupName uuidB = "results_" ++ uuidB ++ "_backup.json" ∧
    (madeRecord uuidB "g.fasta" (analyzeSeqs false [['C'], ['C']])).outputFile =
      some csvName ∧
    extractId csvName = none :=
  artifact_naming_convention ⟨[], ⟨[], []⟩⟩ uuidB "g.fasta" (.parsed [['C'], ['C']]) true
    (madeRecord uuidB "g.fasta" (analyzeSeqs false [['C'], ['C']])) (by decide)

/-! ## Claim C7: reconciliation is idempotent -/

/-- C7: running the full reconciliation pass a second time on the state the
first pass produced, with no external change in between, performs zero
mutations: the second run returns the state unchanged together with an empty
event list.  Stated for registries following the naming convention. -/
theorem reconcile_idempotent (s : SysState) (hg : goodRegistry s.registry) :
    reconcile (reconcile s).1 = ((reconcile s).1, []) := by
  obtain ⟨hg', hset, hnop⟩ := reconcile_settles s.registry s.fs hg
  exact reconcile_noop hset hnop

/-- Witness for `reconcile_idempotent` on a concrete state with a complete
record and one orphaned upload. -/
theorem reconcile_idempotent_witness :
    goodRegistry idemState.registry ∧
      reconcile (reconcile idemState).1 = ((reconcile idemState).1, []) :=
  ⟨goodRegistry_of_b (by decide),
    reconcile_idempotent idemState (goodRegistry_of_b (by decide))⟩

/-! ## Claim C4: results files are backed up after reconciliation -/

/-- C4: after a full reconciliation pass, every record remaining in the
registry whose results reference is non-null has both the results artifact
and its backup present in the uploads directory (a present results file
missing its backup has the backup synthesized during the pass).  Stated for
registries following the naming convention. -/
theorem reconcile_results_backup_invariant (s : SysState)
    (hg : goodRegistry s.registry) :
    ∀ r ∈ (reconcile s).1.registry, ∀ res, r.resultsFile = some res →
      res ∈ (reconcile s).1.fs.uploads ∧
        bakName res ∈ (reconcile s).1.fs.uploads :=
  fun r hr res hres =>
    ((reconcile_settles s.registry s.fs hg).2.1 r hr).2.1 res hres

/-- Witness for `reconcile_results_backup_invariant`: the pass synthesizes
the missing backup of `sampleRecord`'s results file. -/
theorem reconcile_results_backup_invariant_witness :
    goodRegistry backupState.registry ∧
      (resultsName uuidA ∈ (reconcile backupState).1.fs.uploads ∧
        bakName (resultsName uuidA) ∈ (reconcile backupState).1.fs.uploads) :=
  ⟨goodRegistry_of_b (by decide),
    reconcile_results_backup_invariant backupState (goodRegistry_of_b (by decide))
      sampleRecord (by decide) (resultsName uuidA) rfl⟩

/-! ## Claim C1: cascade for a missing results artifact -/

/-- C1: for a registry record whose results artifact is missing when
reconciliation runs, the pass first restores it from the results backup when
that backup exists (and does not regenerate that file); failing that, it
regenerates the results and its backup from the source artifact when the
source is on disk or restorable from the backups directory (and does not
restore that file); and when the source is also unavailable, the record is
deleted from the registry.  Stated for registries following the naming
convention, with the record's source name distinct from its results
artifact names. -/
theorem reconcile_missing_results_cascade (s : SysState) (r : Record)
    (res : String) (hg : goodRegistry s.registry) (hr : r ∈ s.registry)
    (hres : r.resultsFile = some res) (hmiss : res ∉ s.fs.uploads)
    (hdist : ∀ p, r.uploadedFilePath = some p → p ≠ res ∧ p ≠ bakName res) :
    (bakName res ∈ s.fs.uploads →
        Event.restoredResults res ∈ (reconcile s).2 ∧
          Event.regenerated res ∉ (reconcile s).2 ∧
          r ∈ (reconcile s).1.registry) ∧
      (∀ p, bakName res ∉ s.fs.uploads → r.uploadedFilePath = some p →
        p ∈ s.fs.uploads ∨ p ∈ s.fs.backups →
        Event.regenerated res ∈ (reconcile s).2 ∧
          Event.restoredResults res ∉ (reconcile s).2 ∧
          r ∈ (reconcile s).1.registry) ∧
      (bakName res ∉ s.fs.uploads →
        (∀ p, r.uploadedFilePath = some p → p ∉ s.fs.uploads ∧ p ∉ s.fs.backups) →
        Event.deletedRecord r.id ∈ (reconcile s).2 ∧
          r ∉ (reconcile s).1.registry) := by
  obtain ⟨reg, fs⟩ := s
  obtain ⟨hnd, hok⟩ := hg
  have hcas := cfi_cascade reg fs hnd hok r hr res hres hmiss hdist
  have hshape2 : ∀ e ∈ (clean_orphaned_database_entries reg
      (check_file_integrity reg fs).1).2, ∃ rid, e = Event.deletedRecord rid := by
    intro e he
    rw [entries_snd] at he
    rcases List.mem_map.mp he with ⟨r2, _, he2⟩
    exact ⟨r2.id, he2.symm⟩
  have hshape3 : ∀ e ∈ (clean_orphaned_files
      (reg.filter (fun r => hasFilesB (check_file_integrity reg fs).1 r))
      (check_file_integrity reg fs).1).2, ∃ f, e = Event.deletedFile f := by
    intro e he
    rw [files_snd] at he
    rcases List.mem_map.mp he with ⟨f, _, he2⟩
    exact ⟨f, he2.symm⟩
  have hmemE : ∀ e, e ∈ (check_file_integrity reg fs).2 →
      e ∈ (reconcile (⟨reg, fs⟩ : SysState)).2 := by
    intro e he
    rw [reconcile_snd]
    exact List.mem_append.mpr (Or.inl (List.mem_append.mpr (Or.inl he)))
  have hnotE : ∀ e, (∀ rid, e ≠ Event.deletedRecord rid) →
      (∀ f, e ≠ Event.deletedFile f) →
      e ∉ (check_file_integrity reg fs).2 →
      e ∉ (reconcile (⟨reg, fs⟩ : SysState)).2 := by
    intro e hnr hnf hne hmem
    rw [reconcile_snd] at hmem
    rcases List.mem_append.mp hmem with h | h
    · rcases List.mem_append.mp h with h1 | h1
      · exact hne h1
      · rcases hshape2 e h1 with ⟨rid, he2⟩
        exact hnr rid he2
    · rcases hshape3 e h with ⟨f, he2⟩
      exact hnf f he2
  have hsurv : res ∈ (check_file_integrity reg fs).1.uploads →
      r ∈ (reconcile (⟨reg, fs⟩ : SysState)).1.registry := by
    intro hup
    rw [reconcile_fst_registry]
    exact List.mem_filter.mpr ⟨hr, hasFilesB_iff.mpr (Or.inr ⟨res, hres, hup⟩)⟩
  refine ⟨?_, ?_, ?_⟩
  · intro hbak
    obtain ⟨hin, hnot, hup⟩ := hcas.1 hbak
    exact ⟨hmemE _ hin,
      hnotE _ (fun rid h => Event.noConfusion h) (fun f h => Event.noConfusion h) hnot,
      hsurv hup⟩
  · intro p hnbak hsrc hpor
    obtain ⟨hin, hnot, hup⟩ := hcas.2.1 p hnbak hsrc hpor
    exact ⟨hmemE _ hin,
      hnotE _ (fun rid h => Event.noConfusion h) (fun f h => Event.noConfusion h) hnot,
      hsurv hup⟩
  · intro hnbak hlost
    obtain ⟨hupn, hhb⟩ := hcas.2.2 hnbak hlost
    constructor
    · rw [reconcile_snd]
      refine List.mem_append.mpr (Or.inl (List.mem_append.mpr (Or.inr ?_)))
      rw [entries_snd]
      refine List.mem_map_of_mem _ ?_
      refine List.mem_filter.mpr ⟨hr, ?_⟩
      simp [hhb]
    · intro hc
      rw [reconcile_fst_registry] at hc
      have hco := (List.mem_filter.mp hc).2
      simp [hhb] at hco

/-- Witness for the missing-results cascade on a concrete state with the
results backup present: the pass restores the results file. -/
theorem reconcile_missing_results_cascade_witness :
    goodRegistry cascadeState.registry ∧
      bakName (resultsName uuidA) ∈ cascadeState.fs.uploads ∧
      (Event.restoredResults (resultsName uuidA) ∈ (reconcile cascadeState).2 ∧
        Event.regenerated (resultsName uuidA) ∉ (reconcile cascadeState).2 ∧
        sampleRecord ∈ (reconcile cascadeState).1.registry) :=
  ⟨goodRegistry_of_b (by decide), by decide,
    (reconcile_missing_results_cascade cascadeState sampleRecord
        (resultsName uuidA) (goodRegistry_of_b (by decide))
        (List.mem_cons_self _ _) rfl (by decide)
        (fun p hp => by
          cases hp
          exact ⟨by decide, by decide⟩)).1 (by decide)⟩
